import Mathlib

/-!
Verification of the argument-spec generator for Ansible roles.

This file gives a shallow embedding, in Lean, of the spec-generation pipeline
of the repository (modules _type_inference, _variable_extraction, _generator,
_models, _yaml_output, _constants).  Filesystem access and PyYAML parsing are
the abstraction boundary: every function below operates on the parsed data
(the role analysis produced from the files on disk) and mirrors the Python
control flow statement by statement.  Python scalars are modelled by the
inductive type YVal; Python dictionaries by insertion-ordered association
lists; Python sets by lists whose iteration order is fixed by the model
(output never depends on it, because the serializer sorts by name).
Floating point scalars are carried as their literal rendering and are only
inspected for their type and for truthiness.
-/

set_option maxHeartbeats 1000000

namespace ArgSpecGen

/-- YVal models a parsed YAML scalar or container value, i.e. the Python
values flowing through the generator: None, bool, int, float, str, list and
dict (insertion ordered). -/
inductive YVal where
  | ynull  : YVal
  | ybool  : Bool → YVal
  | yint   : Int → YVal
  | yfloat : String → YVal
  | ystr   : String → YVal
  | ylist  : List YVal → YVal
  | ydict  : List (String × YVal) → YVal

open YVal

/-- floatLiteralTruthy decides Python truthiness of a float from its literal:
a float is falsy exactly when it denotes zero, i.e. when the literal has no
nonzero digit. -/
def floatLiteralTruthy (s : String) : Bool :=
  s.toList.any (fun c => c.isDigit && c != '0')

/-- YVal.truthy is Python bool(v): None and empty containers are falsy, zero
numbers are falsy, the empty string is falsy. -/
def YVal.truthy : YVal → Bool
  | ynull => false
  | ybool b => b
  | yint n => n != 0
  | yfloat s => floatLiteralTruthy s
  | ystr s => !s.isEmpty
  | ylist xs => !xs.isEmpty
  | ydict kvs => !kvs.isEmpty

/-- YVal.isNull tests for the Python None value (the is-None check). -/
def YVal.isNull : YVal → Bool
  | ynull => true
  | _ => false

/-- yvalToStr renders a YVal the way a Python f-string interpolates it.  The
pipeline only ever interpolates strings produced by its own description
generator, so only the scalar cases matter; containers get a placeholder. -/
def yvalToStr : YVal → String
  | ynull => "None"
  | ybool b => if b then "True" else "False"
  | yint n => toString n
  | yfloat s => s
  | ystr s => s
  | ylist _ => ""
  | ydict _ => ""

/-! Association-list primitives standing for Python dict operations. -/

/-- lookupKey is Python d.get(k): the value at the first matching key. -/
def lookupKey {α : Type} : List (String × α) → String → Option α
  | [], _ => none
  | (k, v) :: rest, key => if k = key then some v else lookupKey rest key

/-- hasKey is the Python membership test k in d. -/
def hasKey {α : Type} (l : List (String × α)) (k : String) : Bool :=
  (lookupKey l k).isSome

/-- upsertKey is Python d[k] = v: overwrite in place if the key is present,
else append at the end (insertion order). -/
def upsertKey {α : Type} : List (String × α) → String → α → List (String × α)
  | [], k, v => [(k, v)]
  | (k0, v0) :: rest, k, v =>
      if k0 = k then (k, v) :: rest else (k0, v0) :: upsertKey rest k v

/-! String primitives mirroring the Python string operations used by the
generator, defined over the character list so that proofs can unfold them. -/

/-- strContains is the Python substring test pat in s. -/
def strContains (s pat : String) : Bool :=
  s.toList.tails.any (fun t => pat.toList.isPrefixOf t)

/-- strStartsWith is Python s.startswith(pat). -/
def strStartsWith (s pat : String) : Bool :=
  pat.toList.isPrefixOf s.toList

/-- lowerStr is Python s.lower() (ASCII-adequate for every constant that the
generator compares against). -/
def lowerStr (s : String) : String :=
  ⟨s.toList.map Char.toLower⟩

/-- strIsDigit is Python s.isdigit(): nonempty and all digits. -/
def strIsDigit (s : String) : Bool :=
  !s.toList.isEmpty && s.toList.all Char.isDigit

/-- strLen is Python len(s) in characters. -/
def strLen (s : String) : Nat := s.toList.length

/-- charIsIdentStart matches the regex class of a-z A-Z underscore. -/
def charIsIdentStart (c : Char) : Bool :=
  (c ≥ 'a' && c ≤ 'z') || (c ≥ 'A' && c ≤ 'Z') || c = '_'

/-- charIsIdentCont matches the regex class of a-z A-Z 0-9 underscore. -/
def charIsIdentCont (c : Char) : Bool :=
  charIsIdentStart c || (c ≥ '0' && c ≤ '9')

/-- identCore checks an anchored match of the character pattern
first-ident-start then ident-continuation, on an explicit character list. -/
def identCore : List Char → Bool
  | [] => false
  | c :: rest => charIsIdentStart c && rest.all charIsIdentCont

/-- matchesVarRegex models re.match of the anchored identifier pattern used
by the validity predicate.  The dollar anchor of the Python regex also
matches just before one trailing newline, which is reproduced here. -/
def matchesVarRegex (s : String) : Bool :=
  identCore s.toList ||
    (s.toList.getLast? = some '\n' && identCore s.toList.dropLast)

/-! Constants from _constants.py. -/

/-- builtinPrefixes is the _BUILTIN_PREFIXES list. -/
def builtinPrefixes : List String :=
  ["ansible_", "hostvars", "group_names", "groups", "inventory_hostname",
   "inventory_hostname_short", "play_hosts", "omit", "item", "loop"]

/-- nonVariables is the _NON_VARIABLES set. -/
def nonVariables : List String :=
  ["true", "false", "yes", "no", "on", "off", "null", "none", "and", "or",
   "not", "in", "is", "defined", "undefined", "version", "default",
   "production", "staging", "development", "undef", "loop_var", "outer_item",
   "vars", "playbook_dir", "role_path", "inventory_dir"]

/-- isValidRoleVariable embeds _is_valid_role_variable from
_variable_extraction.py: the name-validity predicate applied to every
candidate variable name found by the pattern extractor. -/
def isValidRoleVariable (varName : String) : Bool :=
  if varName.isEmpty then false
  else if builtinPrefixes.any (fun p => strStartsWith varName p)
       || nonVariables.contains (lowerStr varName)
       || strContains varName "("
       || strContains varName "["
       || strContains varName "."
       || strContains varName " "
       || strIsDigit varName
       || strLen varName < 2
       || strStartsWith varName "_" then false
  else if !matchesVarRegex varName then false
  else true

/-! Type inference (_type_inference.py). -/

/-- elemKind classifies one list element the way _infer_list_element_type
does.  The dict branch is checked first; the int branch fires for Python
booleans as well because bool is a subclass of int there and the isinstance
test for int precedes the (therefore unreachable) bool branch. -/
def elemKind : YVal → String
  | ydict _ => "dict"
  | ybool _ => "int"
  | yint _ => "int"
  | yfloat _ => "float"
  | _ => "str"

/-- bumpCount increments a counter in an insertion-ordered counting dict. -/
def bumpCount : List (String × Nat) → String → List (String × Nat)
  | [], k => [(k, 1)]
  | (k0, n) :: rest, k =>
      if k0 = k then (k0, n + 1) :: rest else (k0, n) :: bumpCount rest k

/-- maxByCount is Python max over dict items keyed on the count: the first
item (in insertion order) whose count is maximal. -/
def maxByCount : List (String × Nat) → String
  | [] => "str"
  | c :: rest => (rest.foldl (fun best p => if p.2 > best.2 then p else best) c).1

/-- inferListElementType embeds _infer_list_element_type: the element type of
a list default, by majority vote with first-seen tie-break; str when empty. -/
def inferListElementType (value : List YVal) : String :=
  if value.isEmpty then "str"
  else maxByCount (value.foldl (fun acc e => bumpCount acc (elemKind e)) [])

/-- pathNameKeywords are the name substrings that make a string default a
candidate for the path type. -/
def pathNameKeywords : List String := ["path", "dir", "directory", "file", "location"]

/-- pathValueParts are the system-directory tokens looked for in the value. -/
def pathValueParts : List String := ["home", "tmp", "var", "etc", "usr"]

/-- inferStringType embeds _infer_string_type: the secondary name/value
heuristic for string defaults; every branch other than the path one returns
str. -/
def inferStringType (name value : String) : String :=
  let nameLower := lowerStr name
  if pathNameKeywords.any (fun kw => strContains nameLower kw) &&
     (strStartsWith value "/" || strContains value "\\" ||
      pathValueParts.any (fun p => strContains value p)) then
    "path"
  else if (["url", "uri", "endpoint", "host"].any (fun kw => strContains nameLower kw)) ||
          strStartsWith value "http://" || strStartsWith value "https://" ||
          strStartsWith value "ftp://" then
    "str"
  else if (["state", "status", "mode", "action"].contains nameLower) &&
          (["present", "absent", "enabled", "disabled", "started", "stopped"].contains value) then
    "str"
  else
    "str"

/-- inferTypeOf is the arg_type cascade at the top of _infer_argument_spec:
bool, int, float, list, dict are recognized structurally, strings go through
the string heuristic, anything else becomes str. -/
def inferTypeOf (name : String) : YVal → String
  | ybool _ => "bool"
  | yint _ => "int"
  | yfloat _ => "float"
  | ylist _ => "list"
  | ydict _ => "dict"
  | ystr s => inferStringType name s
  | ynull => "str"

/-! Description generation (_type_inference.py, description side). -/

/-- CtxInfo is one stored usage-context record for a variable; the module
field is absent for records produced by the regex fallback analyzer. -/
structure CtxInfo where
  context : String
  module : Option String := none

/-- VariableContext is the per-role variable_context side table: variable
name to context-key to context record. -/
abbrev VariableContext := List (String × List (String × CtxInfo))

/-- bestContextOf replays the best-context selection loop: a later record
whose key does not contain the word unknown wins, else the first record. -/
def bestContextOf (entries : List (String × CtxInfo)) : Option CtxInfo :=
  entries.foldl
    (fun best p => if best.isNone || !(strContains p.1 "unknown") then some p.2 else best)
    none

/-- descriptionPatterns is the fixed name-to-phrase table of
_generate_smart_description, in declaration order. -/
def descriptionPatterns : List (String × String) :=
  [("enable", "Enable or disable functionality"),
   ("disable", "Disable functionality"),
   ("auth", "Authentication configuration"),
   ("token", "Authentication token"),
   ("key", "Authentication or encryption key"),
   ("secret", "Secret value for authentication"),
   ("cert", "SSL/TLS certificate"),
   ("ssl", "SSL/TLS configuration"),
   ("tls", "TLS configuration"),
   ("password", "Password for authentication"),
   ("user", "Username for authentication"),
   ("admin", "Administrator user or settings"),
   ("port", "Port number for network connection"),
   ("host", "Hostname or IP address"),
   ("address", "Network address"),
   ("url", "URL or web address"),
   ("endpoint", "API endpoint URL"),
   ("proxy", "Proxy server configuration"),
   ("dns", "DNS server or configuration"),
   ("interface", "Network interface"),
   ("bind", "Binding address or interface"),
   ("path", "File or directory path"),
   ("file", "File path"),
   ("dir", "Directory path"),
   ("directory", "Directory path"),
   ("folder", "Directory path"),
   ("location", "File or directory location"),
   ("home", "Home directory path"),
   ("root", "Root directory path"),
   ("base", "Base directory path"),
   ("log", "Log file path or configuration"),
   ("backup", "Backup file or directory path"),
   ("archive", "Archive file path"),
   ("temp", "Temporary directory path"),
   ("cache", "Cache directory path"),
   ("service", "Service name or configuration"),
   ("daemon", "Daemon process configuration"),
   ("process", "Process configuration"),
   ("pid", "Process ID or PID file path"),
   ("uid", "User ID"),
   ("gid", "Group ID"),
   ("owner", "File or resource owner"),
   ("group", "Group name or ID"),
   ("mode", "File permissions or operating mode"),
   ("permission", "Access permissions"),
   ("config", "Configuration settings"),
   ("setting", "Configuration setting"),
   ("option", "Configuration option"),
   ("param", "Parameter value"),
   ("variable", "Variable value"),
   ("value", "Configuration value"),
   ("default", "Default value"),
   ("override", "Override value"),
   ("state", "Desired state of the resource"),
   ("status", "Current status"),
   ("action", "Action to perform"),
   ("operation", "Operation to execute"),
   ("command", "Command to execute"),
   ("script", "Script path or content"),
   ("start", "Start the service or process"),
   ("stop", "Stop the service or process"),
   ("restart", "Restart the service or process"),
   ("reload", "Reload configuration"),
   ("timeout", "Timeout value in seconds"),
   ("retries", "Number of retry attempts"),
   ("delay", "Delay between operations in seconds"),
   ("interval", "Interval between operations"),
   ("frequency", "Frequency of execution"),
   ("schedule", "Schedule configuration"),
   ("cron", "Cron schedule expression"),
   ("debug", "Enable debug mode or output"),
   ("verbose", "Enable verbose output"),
   ("trace", "Enable trace logging"),
   ("force", "Force the operation even if it might cause issues"),
   ("check", "Perform check or validation"),
   ("validate", "Validate configuration or input"),
   ("test", "Test mode or configuration"),
   ("dry_run", "Perform dry run without making changes"),
   ("version", "Version specification"),
   ("package", "Package name or list"),
   ("repo", "Repository configuration"),
   ("repository", "Repository configuration"),
   ("branch", "Git branch name"),
   ("tag", "Version tag"),
   ("release", "Release version"),
   ("data", "Data content or configuration"),
   ("content", "File or resource content"),
   ("template", "Template file or content"),
   ("source", "Source file or URL"),
   ("destination", "Destination path"),
   ("target", "Target location or value"),
   ("output", "Output file or directory"),
   ("input", "Input file or data"),
   ("name", "Name identifier"),
   ("id", "Unique identifier"),
   ("uuid", "Unique identifier (UUID)"),
   ("label", "Label or tag"),
   ("description", "Description text")]

/-- formatDescriptionByType embeds _format_description_by_type: the
value-shape suffix appended to every generated description. -/
def formatDescriptionByType (baseDesc : String) (value : YVal) (argType : String) : String :=
  match value with
  | ybool b =>
      if b then baseDesc ++ " (enabled by default)" else baseDesc ++ " (disabled by default)"
  | yint n =>
      if argType = "int" || argType = "float" then
        baseDesc ++ " (default: " ++ toString n ++ ")"
      else baseDesc
  | yfloat s =>
      if argType = "int" || argType = "float" then
        baseDesc ++ " (default: " ++ s ++ ")"
      else baseDesc
  | ylist xs =>
      if xs.length = 0 then baseDesc ++ " (list, empty by default)"
      else if xs.length = 1 then baseDesc ++ " (list with default item)"
      else baseDesc ++ " (list with " ++ toString xs.length ++ " default items)"
  | ydict kvs =>
      if kvs.length = 0 then baseDesc ++ " (dictionary, empty by default)"
      else baseDesc ++ " (dictionary with default configuration)"
  | ystr s =>
      if s.isEmpty then baseDesc ++ " (empty by default)"
      else if strLen s > 50 then baseDesc ++ " (configured with default value)"
      else baseDesc ++ " (default: \x27" ++ s ++ "\x27)"
  | ynull => baseDesc

/-- generateFallbackDescription embeds _generate_fallback_description: the
structural name-decomposition fallback. -/
def generateFallbackDescription (name : String) (argType : String) : String :=
  let nameParts := ((lowerStr name).replace "-" "_").splitOn "_"
  let cleanedName := (name.replace "_" " ").replace "-" " "
  let lastPart := nameParts.getLastD ""
  let firstPart := nameParts.headD ""
  if nameParts.length > 1 && ["list", "items", "array"].contains lastPart then
    "List of " ++ String.intercalate " " nameParts.dropLast
  else if nameParts.length > 1 && ["config", "conf", "cfg"].contains lastPart then
    "Configuration settings for " ++ String.intercalate " " nameParts.dropLast
  else if nameParts.length > 1 && ["enabled", "enable"].contains lastPart then
    "Enable " ++ String.intercalate " " nameParts.dropLast ++ " functionality"
  else if nameParts.length > 1 && ["disabled", "disable"].contains lastPart then
    "Disable " ++ String.intercalate " " nameParts.dropLast ++ " functionality"
  else if nameParts.length > 1 && ["is", "has", "should", "can"].contains firstPart then
    "Whether to " ++ String.intercalate " " (nameParts.drop 1)
  else if argType = "bool" then "Boolean flag to control " ++ cleanedName
  else if argType = "int" || argType = "float" then "Numeric value for " ++ cleanedName
  else if argType = "list" then "List of " ++ cleanedName ++ " items"
  else if argType = "dict" then "Configuration dictionary for " ++ cleanedName
  else if argType = "path" then "File system path for " ++ cleanedName
  else "Configuration value for " ++ cleanedName

/-- smartDescFromPatterns is the table part of _generate_smart_description:
exact lowercase lookup first, then first substring hit in table order, then
the structural fallback. -/
def smartDescFromPatterns (name : String) (value : YVal) (argType : String) : String :=
  let nameLower := lowerStr name
  match lookupKey descriptionPatterns nameLower with
  | some d => formatDescriptionByType d value argType
  | none =>
      match descriptionPatterns.find? (fun p => strContains nameLower p.1) with
      | some p => formatDescriptionByType p.2 value argType
      | none => generateFallbackDescription name argType

/-- generateSmartDescription embeds _generate_smart_description, consulting
the variable-context side table before the phrase table. -/
def generateSmartDescription (ctx : VariableContext) (name : String) (value : YVal)
    (argType : String) : String :=
  match lookupKey ctx name with
  | some contextInfo =>
      match bestContextOf contextInfo with
      | some best =>
          formatDescriptionByType
            (best.context ++ " (used in " ++ best.module.getD "task" ++ ")") value argType
      | none => smartDescFromPatterns name value argType
  | none => smartDescFromPatterns name value argType

/-! Data models (_models.py). -/

/-- knownArgumentTypes lists the value of every ArgumentType enum member. -/
def knownArgumentTypes : List String :=
  ["str", "int", "float", "bool", "list", "dict", "path", "raw"]

/-- ArgumentSpec mirrors the dataclass of the same name.  Optional dynamic
fields are YVal with ynull standing for Python None. -/
structure ArgumentSpec where
  name : String
  type : String := "str"
  required : Bool := false
  default : YVal := YVal.ynull
  choices : YVal := YVal.ynull
  description : YVal := YVal.ynull
  elements : YVal := YVal.ynull
  options : YVal := YVal.ynull
  version_added : YVal := YVal.ynull

/-- EntryPointSpec mirrors the dataclass of the same name after
post-initialization (None collections replaced by empty ones). -/
structure EntryPointSpec where
  name : String := "main"
  short_description : YVal := YVal.ystr ""
  description : YVal := YVal.ylist []
  author : YVal := YVal.ylist []
  options : List (String × ArgumentSpec) := []
  required_if : List (List YVal) := []
  required_one_of : List (List YVal) := []
  mutually_exclusive : List (List YVal) := []
  required_together : List (List YVal) := []

/-- charListLt is lexicographic comparison by code point, the order Python
sorted uses on the (pairwise distinct) option names. -/
def charListLt : List Char → List Char → Bool
  | [], [] => false
  | [], _ :: _ => true
  | _ :: _, [] => false
  | a :: as, b :: bs =>
      if a.val < b.val then true else if b.val < a.val then false else charListLt as bs

/-- strLtB compares two strings by code point. -/
def strLtB (a b : String) : Bool := charListLt a.toList b.toList

/-- insortKey inserts one keyed pair into an already sorted list. -/
def insortKey {α : Type} (p : String × α) : List (String × α) → List (String × α)
  | [] => [p]
  | q :: rest => if strLtB p.1 q.1 then p :: q :: rest else q :: insortKey p rest

/-- sortByKey is a stable insertion sort by key, modelling Python sorted over
dict items (keys are pairwise distinct wherever the generator sorts). -/
def sortByKey {α : Type} (l : List (String × α)) : List (String × α) :=
  l.foldr insortKey []

/-- insortStr inserts one string into an already sorted list. -/
def insortStr (s : String) : List String → List String
  | [] => [s]
  | t :: rest => if strLtB s t then s :: t :: rest else t :: insortStr s rest

/-- sortStrings models Python sorted over a collection of strings. -/
def sortStrings (l : List String) : List String := l.foldr insortStr []

/-- argToDict embeds ArgumentSpec.to_dict with its exact key order and
presence conditions (truthiness everywhere except the is-not-None test on
the default field and the plain boolean test on required). -/
def argToDict (s : ArgumentSpec) : List (String × YVal) :=
  (if s.description.truthy then [("description", s.description)] else []) ++
  [("type", ystr s.type)] ++
  (if s.required then [("required", ybool s.required)] else []) ++
  (if !s.default.isNull then [("default", s.default)] else []) ++
  (if s.choices.truthy then [("choices", s.choices)] else []) ++
  (if s.elements.truthy then [("elements", s.elements)] else []) ++
  (if s.options.truthy then [("options", s.options)] else []) ++
  (if s.version_added.truthy then [("version_added", s.version_added)] else [])

/-- wrapAsList embeds the description normalization of
EntryPointSpec.to_dict: a list is copied, anything else becomes a singleton
list. -/
def wrapAsList : YVal → YVal
  | ylist xs => ylist xs
  | v => ylist [v]

/-- pyListify is the Python list(x) call applied to the author field.  A
list yields its elements, a string its characters, a dict its keys; the
call raises for non-iterables, a case the pipeline never reaches and that
is mapped to the empty list here. -/
def pyListify : YVal → List YVal
  | ylist xs => xs
  | ystr s => s.toList.map (fun c => ystr ⟨[c]⟩)
  | ydict kvs => kvs.map (fun p => ystr p.1)
  | _ => []

/-- epToDict embeds EntryPointSpec.to_dict: truthiness-gated fields in
declaration order, with options sorted alphabetically by name. -/
def epToDict (ep : EntryPointSpec) : List (String × YVal) :=
  (if ep.short_description.truthy then [("short_description", ep.short_description)] else []) ++
  (if ep.description.truthy then [("description", wrapAsList ep.description)] else []) ++
  (if ep.author.truthy then [("author", ylist (pyListify ep.author))] else []) ++
  (if !ep.options.isEmpty then
    [("options", ydict ((sortByKey ep.options).map (fun p => (p.1, ydict (argToDict p.2)))))]
   else []) ++
  (if !ep.required_if.isEmpty then
    [("required_if", ylist (ep.required_if.map ylist))] else []) ++
  (if !ep.required_one_of.isEmpty then
    [("required_one_of", ylist (ep.required_one_of.map ylist))] else []) ++
  (if !ep.mutually_exclusive.isEmpty then
    [("mutually_exclusive", ylist (ep.mutually_exclusive.map ylist))] else []) ++
  (if !ep.required_together.isEmpty then
    [("required_together", ylist (ep.required_together.map ylist))] else [])

/-! Serialization (_yaml_output.py). -/

/-- specsTree is the dictionary handed to yaml.dump by generate_yaml. -/
def specsTree (eps : List (String × EntryPointSpec)) : YVal :=
  ydict [("argument_specs", ydict (eps.map (fun p => (p.1, ydict (epToDict p.2)))))]

/-- YamlOut is the result of generate_yaml: either the hard-coded empty
document or the deterministic dump of the specs tree (the PyYAML rendering
itself is the external library boundary; equal trees dump to identical
bytes). -/
inductive YamlOut where
  | literal : String → YamlOut
  | dumped : YVal → YamlOut

/-- generateYaml embeds generate_yaml: the fixed empty document when there
are no entry points, else the dumped tree. -/
def generateYaml (eps : List (String × EntryPointSpec)) : YamlOut :=
  if eps.isEmpty then YamlOut.literal "---\nargument_specs: \x7b\x7d\n...\n"
  else YamlOut.dumped (specsTree eps)

/-- saveRoleSpecs embeds save_role_specs as the written file content: none
models returning without writing (no entry points, or dry run). -/
def saveRoleSpecs (eps : List (String × EntryPointSpec)) (dryRun : Bool) : Option YamlOut :=
  if eps.isEmpty then none
  else if dryRun then none
  else some (generateYaml eps)

/-! Existing-spec snapshots (load_existing_specs in _generator.py). -/

/-- ExistingOpt is one option entry of the existing-specs snapshot: the
stored description and version_added (ynull when not stored) plus the
_existing flag, which load_existing_specs sets for every listed option. -/
structure ExistingOpt where
  description : YVal := YVal.ynull
  version_added : YVal := YVal.ynull
  existing : Bool := false

/-- getOpt is existing_options.get(name, the empty dict): a miss yields a
record with no description, no version and _existing false. -/
def getOpt (exOpts : List (String × ExistingOpt)) (n : String) : ExistingOpt :=
  (lookupKey exOpts n).getD {}

/-- ExistingEntry is one entry point of the existing-specs snapshot.  The
entry-level fields keep track of key presence (the merge engine tests
membership, not truthiness, for them). -/
structure ExistingEntry where
  description : Option YVal := none
  short_description : Option YVal := none
  author : Option YVal := none
  options : List (String × ExistingOpt) := []

/-- parseExistingOpt is the per-option part of load_existing_specs. -/
def parseExistingOpt : YVal → ExistingOpt
  | ydict kvs =>
      { description := (lookupKey kvs "description").getD YVal.ynull,
        version_added := (lookupKey kvs "version_added").getD YVal.ynull,
        existing := true }
  | _ => { existing := true }

/-- parseExistingEntry is the per-entry part of load_existing_specs. -/
def parseExistingEntry (entryData : List (String × YVal)) : ExistingEntry :=
  { description := lookupKey entryData "description",
    short_description := lookupKey entryData "short_description",
    author := lookupKey entryData "author",
    options :=
      match lookupKey entryData "options" with
      | some (ydict opts) => opts.map (fun p => (p.1, parseExistingOpt p.2))
      | _ => [] }

/-- loadExistingSpecs embeds load_existing_specs applied to the parsed
content of meta/argument_specs.yml (the file read and the YAML parse are the
abstracted boundary; parse failures yield the empty snapshot, which the
non-dict fallbacks below also produce). -/
def loadExistingSpecs : YVal → List (String × ExistingEntry)
  | ydict kvs =>
      match lookupKey kvs "argument_specs" with
      | some (ydict entries) =>
          entries.filterMap (fun p =>
            match p.2 with
            | ydict ed => some (p.1, parseExistingEntry ed)
            | _ => none)
      | _ => []
  | _ => []

/-! Role analysis (analyze_role_structure in _generator.py).  The Analysis
structure holds the file-derived data exactly as the analysis dict does
after the loading steps: parsed defaults and vars mappings, the task file
stems, the include graph, the per-file variable sets, the detected version
and the metadata extracts. -/

/-- Analysis is the role-scoped analysis dict built by
analyze_role_structure, at the boundary after all file loading. -/
structure Analysis where
  defaults : List (String × YVal) := []
  vars : List (String × YVal) := []
  taskFiles : List String := []
  fileIncludesMap : List (String × List String) := []
  fileVariables : List (String × List String) := []
  version : String := "1.0.0"
  authors : List String := []
  metaDescription : YVal := YVal.ylist []
  metaShortDescription : String := ""
  variableCtx : VariableContext := []

/-- includesOf is file_includes_map.get(name, the empty set). -/
def includesOf (A : Analysis) (f : String) : List String :=
  (lookupKey A.fileIncludesMap f).getD []

/-- entryFileVarsOf is file_variables.get(name, the empty set). -/
def entryFileVarsOf (A : Analysis) (f : String) : List String :=
  (lookupKey A.fileVariables f).getD []

/-- allIncludedFiles is the all_included_files union accumulated over every
task file in _analyze_task_files. -/
def allIncludedFiles (A : Analysis) : List String :=
  (A.fileIncludesMap.map (fun p => p.2)).flatten

/-- determineEntryPoints embeds _determine_entry_points: main is always an
entry point; any other task file stem not included by anyone is appended in
sorted order. -/
def determineEntryPoints (taskFileStems allIncluded : List String) : List String :=
  let standalone := (taskFileStems.filter
    (fun s => s ≠ "main" && !allIncluded.contains s)).dedup
  "main" :: sortStrings standalone

/-- entryNames lists the entry points of an analysis, in the iteration
order of the entry_points dict. -/
def entryNames (A : Analysis) : List String :=
  determineEntryPoints A.taskFiles (allIncludedFiles A)

/-! Flat variables mapping (the combination step at the end of
analyze_role_structure, lines 297 to 338 of _generator.py). -/

/-- VarRecord is the small per-variable record of the role-level variables
mapping (not yet an ArgumentSpec). -/
structure VarRecord where
  type : String
  required : Bool
  description : String
  default : Option YVal := none

/-- combineVariables embeds the four-layer combination loop: defaults first
(optional, typed str, carrying the default), then vars, then task variables,
then template variables; every later layer is guarded by a membership test,
so the first writer wins per name. -/
def combineVariables (defaults vars : List (String × YVal))
    (taskVars templateVars : List String) : List (String × VarRecord) :=
  let v1 := defaults.foldl
    (fun acc p => upsertKey acc p.1
      { type := "str", default := some p.2, required := false,
        description := "Variable from defaults: " ++ p.1 })
    []
  let v2 := vars.foldl
    (fun acc p =>
      if hasKey acc p.1 then acc
      else upsertKey acc p.1
        { type := "str", required := true,
          description := "Variable from vars: " ++ p.1 })
    v1
  let v3 := taskVars.foldl
    (fun acc n =>
      if hasKey acc n then acc
      else upsertKey acc n
        { type := "str", required := true,
          description := "Variable used in tasks: " ++ n })
    v2
  templateVars.foldl
    (fun acc n =>
      if hasKey acc n then acc
      else upsertKey acc n
        { type := "str", required := true,
          description := "Variable used in templates: " ++ n })
    v3

/-- analysisVariables is the variables field of the analysis dict.  The
task_vars and template_vars sets are initialised empty at the top of
analyze_role_structure (lines 184 and 185) and no statement in the module
ever adds to them (the per-file discoveries go to file_variables instead),
so the combination step always receives empty sets for those two layers. -/
def analysisVariables (A : Analysis) : List (String × VarRecord) :=
  combineVariables A.defaults A.vars [] []

/-! Spec merge engine (_create_entry_point_spec and helpers). -/

/-- inferArgumentSpec embeds _infer_argument_spec: type inference on the
raw default, description reuse or generation, and the version_added rule. -/
def inferArgumentSpec (ctx : VariableContext) (name : String) (value : YVal)
    (existingDescription existingVersionAdded : YVal) (isExisting : Bool)
    (currentVersion : String) : ArgumentSpec :=
  let argType := inferTypeOf name value
  let elements : YVal :=
    match value with
    | ylist xs => ystr (inferListElementType xs)
    | _ => ynull
  let description :=
    if existingDescription.truthy then existingDescription
    else ystr (generateSmartDescription ctx name value argType)
  let versionAdded :=
    if existingVersionAdded.truthy then existingVersionAdded
    else if isExisting then ynull
    else ystr currentVersion
  { name := name, type := argType, default := value,
    description := description, elements := elements,
    version_added := versionAdded }

/-- addDefaultVariables is the defaults loop of _create_entry_point_spec. -/
def addDefaultVariables (A : Analysis) (exOpts : List (String × ExistingOpt))
    (opts0 : List (String × ArgumentSpec)) : List (String × ArgumentSpec) :=
  A.defaults.foldl
    (fun o p =>
      let eo := getOpt exOpts p.1
      upsertKey o p.1
        (inferArgumentSpec A.variableCtx p.1 p.2 eo.description eo.version_added
          eo.existing A.version))
    opts0

/-- addVarsVariables is the vars loop of _create_entry_point_spec, with the
defined-in-vars suffix added when no existing description was reused. -/
def addVarsVariables (A : Analysis) (exOpts : List (String × ExistingOpt))
    (opts0 : List (String × ArgumentSpec)) : List (String × ArgumentSpec) :=
  A.vars.foldl
    (fun o p =>
      if hasKey o p.1 then o
      else
        let eo := getOpt exOpts p.1
        let s := inferArgumentSpec A.variableCtx p.1 p.2 eo.description
          eo.version_added eo.existing A.version
        let s :=
          if eo.description.truthy then s
          else { s with description := ystr (yvalToStr s.description ++ " (defined in vars)") }
        upsertKey o p.1 s)
    opts0

/-- addEntryPointVariables embeds _add_entry_point_variables: variables
discovered in the entry-point file itself, guarded by prior presence, with
the required/optional rule against defaults and vars. -/
def addEntryPointVariables (A : Analysis) (exOpts : List (String × ExistingOpt))
    (epName : String) (opts0 : List (String × ArgumentSpec)) :
    List (String × ArgumentSpec) :=
  (entryFileVarsOf A epName).foldl
    (fun o n =>
      if hasKey o n then o
      else
        let eo := getOpt exOpts n
        let description :=
          if eo.description.truthy then eo.description
          else ystr ("Variable used in " ++ epName ++ " entry point")
        let versionAdded :=
          if eo.version_added.truthy then eo.version_added
          else if eo.existing then ynull
          else ystr A.version
        let hasDefault := hasKey A.defaults n || hasKey A.vars n
        upsertKey o n
          { name := n, type := "str", description := description,
            version_added := versionAdded, required := !hasDefault })
    opts0

/-- addIncludedVar is the per-variable body shared by the two textually
identical addition blocks of _merge_included_variables (the direct loop and
the recursive collector). -/
def addIncludedVar (A : Analysis) (exOpts : List (String × ExistingOpt))
    (fileName : String) (o : List (String × ArgumentSpec)) (n : String) :
    List (String × ArgumentSpec) :=
  if hasKey o n then o
  else
    let eo := getOpt exOpts n
    let description :=
      if eo.description.truthy then eo.description
      else ystr ("Variable used in included task file: " ++ fileName ++ ".yml")
    let versionAdded :=
      if eo.version_added.truthy then eo.version_added
      else if eo.existing then ynull
      else ystr A.version
    let hasDefault := hasKey A.defaults n || hasKey A.vars n
    upsertKey o n
      { name := n, type := "str", description := description,
        version_added := versionAdded, required := !hasDefault }

/-- MergeSt is the mutable state of _merge_included_variables: the options
mapping under construction and the visited-file set of the recursion. -/
structure MergeSt where
  options : List (String × ArgumentSpec)
  visited : List String

/-- collectAux embeds collect_recursive_variables.  The Python recursion
terminates because the visited set grows; here the same recursion carries a
fuel argument, and fuel independence above the canonical bound is proved
below (which is exactly the termination of the source recursion). -/
def collectAux (A : Analysis) (exOpts : List (String × ExistingOpt)) :
    Nat → String → MergeSt → MergeSt
  | 0, _, st => st
  | fuel + 1, f, st =>
      if st.visited.contains f then st
      else
        let st1 : MergeSt := { st with visited := f :: st.visited }
        let st2 : MergeSt :=
          match lookupKey A.fileVariables f with
          | some vars => { st1 with options := vars.foldl (addIncludedVar A exOpts f) st1.options }
          | none => st1
        (includesOf A f).foldl (fun s sub => collectAux A exOpts fuel sub s) st2

/-- collectFuel is the canonical fuel: more than the number of files that
can ever be marked visited (the direct includes plus every key and every
listed include of the include map). -/
def collectFuel (A : Analysis) (epName : String) : Nat :=
  (includesOf A epName).length +
    A.fileIncludesMap.foldl (fun n p => n + 1 + p.2.length) 0 + 1

/-- mergeIncludedStFuel is _merge_included_variables with the recursion
fuel exposed: first the direct loop over the entry points own includes,
then the recursive collection over the same includes with a shared visited
set. -/
def mergeIncludedStFuel (A : Analysis) (exOpts : List (String × ExistingOpt))
    (epName : String) (opts0 : List (String × ArgumentSpec)) (fuel : Nat) : MergeSt :=
  let included := includesOf A epName
  let opts1 := included.foldl
    (fun o f =>
      match lookupKey A.fileVariables f with
      | some vars => vars.foldl (addIncludedVar A exOpts f) o
      | none => o)
    opts0
  included.foldl (fun st f => collectAux A exOpts fuel f st)
    { options := opts1, visited := [] }

/-- mergeIncludedSt embeds _merge_included_variables, run at the canonical
fuel (which the stability theorem below shows is enough: any larger fuel
gives the same state, which is the termination of the source recursion). -/
def mergeIncludedSt (A : Analysis) (exOpts : List (String × ExistingOpt))
    (epName : String) (opts0 : List (String × ArgumentSpec)) : MergeSt :=
  mergeIncludedStFuel A exOpts epName opts0 (collectFuel A epName)

/-- mergeIncludedVariables is the options mapping after
_merge_included_variables has run. -/
def mergeIncludedVariables (A : Analysis) (exOpts : List (String × ExistingOpt))
    (epName : String) (opts0 : List (String × ArgumentSpec)) :
    List (String × ArgumentSpec) :=
  (mergeIncludedSt A exOpts epName opts0).options

/-- genDescriptionLines builds the synthesized entry-point description of
_create_entry_point_spec, with the includes line when the entry point
includes other task files. -/
def genDescriptionLines (roleName epName : String) (A : Analysis) : List String :=
  let base := ["Automatically generated argument specification for the " ++ roleName ++ " role.",
               "Entry point: " ++ epName]
  let included := includesOf A epName
  if !included.isEmpty then
    base ++ ["Includes task files: " ++ String.intercalate ", " (sortStrings included.dedup)]
  else base

/-- createEntryPointSpec embeds _create_entry_point_spec: entry-level field
resolution (existing value by key presence, else metadata, else synthesized
default) followed by the four variable-addition passes in source order. -/
def createEntryPointSpec (epName roleName : String) (A : Analysis)
    (ex : ExistingEntry) : EntryPointSpec :=
  let description : YVal :=
    match ex.description with
    | some d => d
    | none =>
        if A.metaDescription.truthy then A.metaDescription
        else ylist ((genDescriptionLines roleName epName A).map ystr)
  let shortDescription : YVal :=
    match ex.short_description with
    | some d => d
    | none =>
        if !A.metaShortDescription.isEmpty then ystr A.metaShortDescription
        else ystr ("Auto-generated specs for " ++ roleName ++ " role - " ++ epName ++ " entry point")
  let author : YVal :=
    match ex.author with
    | some a => a
    | none => ylist (A.authors.map ystr)
  let opts1 := addDefaultVariables A ex.options []
  let opts2 := addVarsVariables A ex.options opts1
  let opts3 := addEntryPointVariables A ex.options epName opts2
  let opts4 := mergeIncludedVariables A ex.options epName opts3
  { name := epName, short_description := shortDescription, description := description,
    author := author, options := opts4 }

/-- processRole embeds the spec-building part of process_single_role: one
EntryPointSpec per entry point of the analysis, each merged against the
matching entry of the existing snapshot. -/
def processRole (A : Analysis) (roleName : String)
    (existing : List (String × ExistingEntry)) : List (String × EntryPointSpec) :=
  (entryNames A).map
    (fun e => (e, createEntryPointSpec e roleName A ((lookupKey existing e).getD {})))

/-- runRoleTree is the serialized mapping tree written for one role: the
composition of processRole with the serializer tree.  Byte-identical file
content is equivalent to equality of these trees, because the dumper is a
deterministic pure function of the tree. -/
def runRoleTree (A : Analysis) (roleName : String)
    (existing : List (String × ExistingEntry)) : YVal :=
  specsTree (processRole A roleName existing)

/-! Validation (validate_specs in _generator.py). -/

/-- strElem is the Python membership test of a dynamic value against the
set of declared option names: it succeeds only for an equal string. -/
def strElem (v : YVal) (names : List String) : Bool :=
  match v with
  | ystr s => names.contains s
  | _ => false

/-- pyWrapList wraps a non-list value in a singleton list, as validate_specs
does with the third element of a required_if condition. -/
def pyWrapList : YVal → List YVal
  | ylist xs => xs
  | v => [v]

/-- validateEntry is the per-entry-point body of validate_specs, threading
the running valid flag exactly as the source does. -/
def validateEntry (valid0 : Bool) (ep : EntryPointSpec) : Bool :=
  let v1 := ep.options.foldl
    (fun v p => if knownArgumentTypes.contains p.2.type then v else false) valid0
  let allArgs := ep.options.map (fun p => p.1)
  let v2 := ep.required_if.foldl
    (fun v cond =>
      if cond.length ≥ 3 then
        let param := cond.getD 0 ynull
        let requiredParams := pyWrapList (cond.getD 2 ynull)
        let v := if strElem param allArgs then v else false
        requiredParams.foldl (fun v rp => if strElem rp allArgs then v else false) v
      else v)
    v1
  let v3 := ep.required_one_of.foldl
    (fun v cond => cond.foldl (fun v p => if strElem p allArgs then v else false) v) v2
  let v4 := ep.mutually_exclusive.foldl
    (fun v cond => cond.foldl (fun v p => if strElem p allArgs then v else false) v) v3
  ep.required_together.foldl
    (fun v cond => cond.foldl (fun v p => if strElem p allArgs then v else false) v) v4

/-- validateSpecs embeds validate_specs over the entry-point mapping.  It is
a pure Bool-valued function: validation neither raises nor modifies the
entry-point state. -/
def validateSpecs (eps : List (String × EntryPointSpec)) : Bool :=
  eps.foldl (fun valid p => validateEntry valid p.2) true

end ArgSpecGen

namespace ArgSpecGen

open YVal

/-! Permutation facts about the insertion sorts used by the serializer and
the entry-point classifier. -/

theorem insortStr_perm (s : String) :
    ∀ l : List String, List.Perm (insortStr s l) (s :: l) := by
  intro l
  induction l with
  | nil => simp [insortStr]
  | cons t rest ih =>
      by_cases h : strLtB s t
      · simp [insortStr, h]
      · simp only [insortStr, h, if_false]
        exact (ih.cons t).trans (List.Perm.swap s t rest)

theorem sortStrings_perm : ∀ l : List String, List.Perm (sortStrings l) l := by
  intro l
  induction l with
  | nil => exact List.Perm.refl []
  | cons t rest ih =>
      exact (insortStr_perm t (sortStrings rest)).trans (ih.cons t)

theorem mem_sortStrings (s : String) (l : List String) :
    s ∈ sortStrings l ↔ s ∈ l :=
  (sortStrings_perm l).mem_iff

end ArgSpecGen

namespace ArgSpecGen

open YVal

/-- Claim C10: with an empty entry-point mapping, generate_yaml returns
exactly the fixed empty document string, and save_role_specs returns
without writing any file (modelled as producing no output), for any dry-run
setting. -/
theorem empty_state_serialization :
    generateYaml [] = YamlOut.literal "---\nargument_specs: \x7b\x7d\n...\n" ∧
    (∀ dryRun : Bool, saveRoleSpecs [] dryRun = none) := by
  constructor
  · rfl
  · intro d; rfl

/-- Claim C3: for every set of task-file stems and every included-stems
union, a name is an entry point iff it is main or a stem that is neither
main nor included by anyone; concretely, with files main (including
helpers), helpers, and backup (included by nobody), the entry points are
exactly main and backup; and the per-analysis entry list is exactly this
classification applied to the task files and the included union. -/
theorem entry_point_classification :
    (∀ (stems included : List String) (s : String),
      s ∈ determineEntryPoints stems included ↔
        s = "main" ∨ (s ∈ stems ∧ s ≠ "main" ∧ s ∉ included)) ∧
    determineEntryPoints ["main", "helpers", "backup"] ["helpers"] = ["main", "backup"] ∧
    (∀ A : Analysis, entryNames A = determineEntryPoints A.taskFiles (allIncludedFiles A)) := by
  refine ⟨?_, by decide, fun A => rfl⟩
  intro stems included s
  unfold determineEntryPoints
  simp only [List.mem_cons, mem_sortStrings, List.mem_dedup, List.mem_filter,
    Bool.and_eq_true, decide_eq_true_eq, Bool.not_eq_true', List.elem_eq_mem,
    decide_eq_false_iff_not]

/-- inferStringType always lands in the path branch or the str default: all
intermediate branches of the string heuristic return str. -/
theorem inferStringType_eq (name value : String) :
    inferStringType name value =
      if (pathNameKeywords.any fun kw => strContains (lowerStr name) kw) &&
         (strStartsWith value "/" || strContains value "\\" ||
          pathValueParts.any fun p => strContains value p)
      then "path" else "str" := by
  unfold inferStringType
  simp only []
  split_ifs <;> rfl

/-- Strings infer to the path type exactly when the lowered name contains a
path keyword and the value looks like an absolute path, contains a
backslash, or contains a known system-directory token. -/
theorem inferStringType_path_iff (name value : String) :
    inferStringType name value = "path" ↔
      ((∃ kw ∈ pathNameKeywords, strContains (lowerStr name) kw = true) ∧
       (strStartsWith value "/" = true ∨ strContains value "\\" = true ∨
        ∃ p ∈ pathValueParts, strContains value p = true)) := by
  rw [inferStringType_eq]
  by_cases hC : ((pathNameKeywords.any fun kw => strContains (lowerStr name) kw) &&
         (strStartsWith value "/" || strContains value "\\" ||
          pathValueParts.any fun p => strContains value p)) = true
  · rw [if_pos hC]
    simp only [Bool.and_eq_true, Bool.or_eq_true, List.any_eq_true] at hC
    simp only [true_iff]
    tauto
  · rw [if_neg hC]
    constructor
    · intro h; exact absurd h (by decide)
    · intro hr
      exfalso; apply hC
      simp only [Bool.and_eq_true, Bool.or_eq_true, List.any_eq_true]
      tauto

/-- Claim C6: type inference is a deterministic function of the raw value
and, for strings, the name: booleans infer to bool, integers to int, floats
to float, lists to list with the element type from the majority vote (str
for the empty list), mappings to dict, and strings to path exactly under
the name/value heuristic, else str; with the concrete instances from the
specification. -/
theorem type_inference_rules :
    (∀ (ctx : VariableContext) (name : String) (v ed ev : YVal) (ie : Bool) (cv : String),
      (inferArgumentSpec ctx name v ed ev ie cv).type = inferTypeOf name v) ∧
    (∀ (n : String) (b : Bool), inferTypeOf n (ybool b) = "bool") ∧
    (∀ (n : String) (i : Int), inferTypeOf n (yint i) = "int") ∧
    (∀ (n s : String), inferTypeOf n (yfloat s) = "float") ∧
    (∀ (n : String) (xs : List YVal), inferTypeOf n (ylist xs) = "list") ∧
    (∀ (ctx : VariableContext) (n cv : String) (xs : List YVal) (ed ev : YVal) (ie : Bool),
      (inferArgumentSpec ctx n (ylist xs) ed ev ie cv).elements = ystr (inferListElementType xs)) ∧
    (∀ (n : String) (kvs : List (String × YVal)), inferTypeOf n (ydict kvs) = "dict") ∧
    inferListElementType [] = "str" ∧
    (∀ name value : String, inferStringType name value = "path" ↔
      ((∃ kw ∈ pathNameKeywords, strContains (lowerStr name) kw = true) ∧
       (strStartsWith value "/" = true ∨ strContains value "\\" = true ∨
        ∃ p ∈ pathValueParts, strContains value p = true))) ∧
    inferTypeOf "x" (ybool true) = "bool" ∧
    inferTypeOf "x" (yint 8080) = "int" ∧
    inferTypeOf "x" (yfloat "0.5") = "float" ∧
    (inferTypeOf "x" (ylist [ystr "a", ystr "b"]) = "list" ∧
      inferListElementType [ystr "a", ystr "b"] = "str") ∧
    inferTypeOf "x" (ydict []) = "dict" ∧
    inferTypeOf "config_path" (ystr "/etc/app/x") = "path" ∧
    inferTypeOf "app_name" (ystr "/etc/app/x") = "str" := by
  refine ⟨fun ctx name v ed ev ie cv => rfl, fun n b => rfl, fun n i => rfl,
    fun n s => rfl, fun n xs => rfl, fun ctx n cv xs ed ev ie => rfl,
    fun n kvs => rfl, rfl, inferStringType_path_iff, ?_⟩
  refine ⟨rfl, rfl, rfl, ⟨rfl, rfl⟩, rfl, ?_, ?_⟩ <;> decide

/-- Claim C7: the name-validity predicate rejects a candidate exactly when
it is empty, starts with a built-in prefix, lowercases into the fixed
non-variable keyword set, contains a parenthesis, bracket, dot or space, is
purely numeric, is shorter than two characters, starts with an underscore,
or fails the anchored identifier regex; with concrete accepted and rejected
candidates. -/
theorem name_validity_rule :
    (∀ s : String,
      isValidRoleVariable s = false ↔
        (s = "" ∨ (∃ p ∈ builtinPrefixes, strStartsWith s p = true) ∨
         lowerStr s ∈ nonVariables ∨ strContains s "(" = true ∨
         strContains s "[" = true ∨ strContains s "." = true ∨
         strContains s " " = true ∨ strIsDigit s = true ∨ strLen s < 2 ∨
         strStartsWith s "_" = true ∨ matchesVarRegex s = false)) ∧
    isValidRoleVariable "hostvars_custom" = false ∧
    isValidRoleVariable "foo.bar" = false ∧
    isValidRoleVariable "_private" = false ∧
    isValidRoleVariable "a" = false ∧
    isValidRoleVariable "my_var2" = true ∧
    isValidRoleVariable "ab" = true := by
  refine ⟨?_, by decide, by decide, by decide, by decide, by decide, by decide⟩
  intro s
  have hBool : isValidRoleVariable s = false ↔
      (s.isEmpty ||
       (builtinPrefixes.any (fun p => strStartsWith s p)
        || nonVariables.contains (lowerStr s)
        || strContains s "("
        || strContains s "["
        || strContains s "."
        || strContains s " "
        || strIsDigit s
        || strLen s < 2
        || strStartsWith s "_")
       || !matchesVarRegex s) = true := by
    unfold isValidRoleVariable
    split_ifs with h1 h2 h3 <;> simp_all
  rw [hBool]
  simp only [Bool.or_eq_true, List.any_eq_true, List.elem_eq_mem, decide_eq_true_eq,
    Bool.not_eq_true', String.isEmpty_iff]
  aesop

end ArgSpecGen

namespace ArgSpecGen

open YVal

theorem foldl_eq_and_all {α : Type} (f : Bool → α → Bool) (g : α → Bool)
    (hf : ∀ v x, f v x = (v && g x)) :
    ∀ (l : List α) (v0 : Bool), l.foldl f v0 = (v0 && l.all g) := by
  intro l
  induction l with
  | nil => intro v0; simp
  | cons x xs ih => intro v0; rw [List.foldl_cons, hf, List.all_cons, ih, Bool.and_assoc]

theorem guard_body_eq {α : Type} (g : α → Bool) (v : Bool) (x : α) :
    (if g x then v else false) = (v && g x) := by
  by_cases h : g x <;> simp [h]

theorem foldl_guard_eq {α : Type} (g : α → Bool) (l : List α) (v0 : Bool) :
    l.foldl (fun v x => if g x then v else false) v0 = (v0 && l.all g) :=
  foldl_eq_and_all _ g (fun v x => guard_body_eq g v x) l v0

def reqIfOK (allArgs : List String) (cond : List YVal) : Bool :=
  if cond.length ≥ 3 then
    strElem (cond.getD 0 ynull) allArgs &&
    (pyWrapList (cond.getD 2 ynull)).all (fun rp => strElem rp allArgs)
  else true

def groupOK (allArgs : List String) (cond : List YVal) : Bool :=
  cond.all (fun p => strElem p allArgs)

def entryOK (ep : EntryPointSpec) : Bool :=
  ep.options.all (fun p => knownArgumentTypes.contains p.2.type) &&
  ep.required_if.all (reqIfOK (ep.options.map (fun p => p.1))) &&
  ep.required_one_of.all (groupOK (ep.options.map (fun p => p.1))) &&
  ep.mutually_exclusive.all (groupOK (ep.options.map (fun p => p.1))) &&
  ep.required_together.all (groupOK (ep.options.map (fun p => p.1)))

theorem reqIf_body_eq (args : List String) (v : Bool) (cond : List YVal) :
    (if cond.length ≥ 3 then
       (pyWrapList (cond.getD 2 ynull)).foldl
         (fun v rp => if strElem rp args then v else false)
         (if strElem (cond.getD 0 ynull) args then v else false)
     else v) = (v && reqIfOK args cond) := by
  by_cases hlen : cond.length ≥ 3
  · rw [if_pos hlen, foldl_guard_eq, guard_body_eq]
    unfold reqIfOK
    rw [if_pos hlen, Bool.and_assoc]
  · rw [if_neg hlen]; unfold reqIfOK; rw [if_neg hlen, Bool.and_true]

theorem group_body_eq (args : List String) (v : Bool) (cond : List YVal) :
    cond.foldl (fun v p => if strElem p args then v else false) v = (v && groupOK args cond) :=
  foldl_guard_eq _ cond v

theorem validateEntry_eq (v0 : Bool) (ep : EntryPointSpec) :
    validateEntry v0 ep = (v0 && entryOK ep) := by
  unfold validateEntry
  simp only []
  rw [foldl_guard_eq (fun (p : String × ArgumentSpec) => knownArgumentTypes.contains p.2.type)]
  rw [foldl_eq_and_all _ _ (reqIf_body_eq (ep.options.map (fun p => p.1)))]
  rw [foldl_eq_and_all _ _ (group_body_eq (ep.options.map (fun p => p.1)))]
  rw [foldl_eq_and_all _ _ (group_body_eq (ep.options.map (fun p => p.1)))]
  rw [foldl_eq_and_all _ _ (group_body_eq (ep.options.map (fun p => p.1)))]
  unfold entryOK
  simp [Bool.and_assoc]

theorem validateSpecs_eq (eps : List (String × EntryPointSpec)) :
    validateSpecs eps = eps.all (fun p => entryOK p.2) := by
  have h := foldl_eq_and_all (fun v (p : String × EntryPointSpec) => validateEntry v p.2)
    (fun p => entryOK p.2) (fun v p => validateEntry_eq v p.2) eps true
  simpa [validateSpecs] using h

end ArgSpecGen

namespace ArgSpecGen

open YVal

theorem all_congr_mem {α : Type} (l : List α) (f g : α → Bool)
    (h : ∀ x ∈ l, f x = g x) : l.all f = l.all g := by
  induction l with
  | nil => rfl
  | cons x xs ih =>
      simp only [List.all_cons]
      rw [h x (by simp), ih (fun y hy => h y (by simp [hy]))]

def refersToDeclared (v : YVal) (names : List String) : Prop :=
  ∃ s, v = ystr s ∧ s ∈ names

theorem strElem_true_iff (v : YVal) (names : List String) :
    strElem v names = true ↔ refersToDeclared v names := by
  cases v <;> simp [strElem, refersToDeclared, List.elem_eq_mem]

theorem entryOK_false_iff (ep : EntryPointSpec)
    (hwf : ∀ cond ∈ ep.required_if, 3 ≤ cond.length) :
    entryOK ep = false ↔
      ((∃ o ∈ ep.options, o.2.type ∉ knownArgumentTypes) ∨
       (∃ cond ∈ ep.required_if,
          ¬refersToDeclared (cond.getD 0 ynull) (ep.options.map (fun p => p.1)) ∨
          ∃ rp ∈ pyWrapList (cond.getD 2 ynull),
            ¬refersToDeclared rp (ep.options.map (fun p => p.1))) ∨
       (∃ cond ∈ ep.required_one_of, ∃ q ∈ cond,
          ¬refersToDeclared q (ep.options.map (fun p => p.1))) ∨
       (∃ cond ∈ ep.mutually_exclusive, ∃ q ∈ cond,
          ¬refersToDeclared q (ep.options.map (fun p => p.1))) ∨
       (∃ cond ∈ ep.required_together, ∃ q ∈ cond,
          ¬refersToDeclared q (ep.options.map (fun p => p.1)))) := by
  have hrw : ep.required_if.all (reqIfOK (ep.options.map (fun p => p.1))) =
      ep.required_if.all (fun cond =>
        strElem (cond.getD 0 ynull) (ep.options.map (fun p => p.1)) &&
        (pyWrapList (cond.getD 2 ynull)).all
          (fun rp => strElem rp (ep.options.map (fun p => p.1)))) := by
    refine all_congr_mem _ _ _ (fun cond hc => ?_)
    unfold reqIfOK
    rw [if_pos (hwf cond hc)]
  rw [show (entryOK ep = false) ↔ ¬(entryOK ep = true) by simp]
  unfold entryOK
  rw [hrw]
  simp only [Bool.and_eq_true, List.all_eq_true, not_and_or, not_forall,
    groupOK, strElem_true_iff, List.elem_eq_mem, decide_eq_true_eq]
  aesop

end ArgSpecGen

namespace ArgSpecGen

open YVal

/-- Claim C9: validate_specs, a pure function of the entry-point mapping
(it raises nothing and leaves the generator state untouched), returns false
exactly when some entry point declares an option whose type is outside the
eight known kinds, or some parameter referenced inside required_if,
required_one_of, mutually_exclusive or required_together (conditions in the
documented triple and group shapes) is not a declared option name of that
entry point. -/
theorem spec_validation_rule (eps : List (String × EntryPointSpec))
    (hwf : ∀ p ∈ eps, ∀ cond ∈ p.2.required_if, 3 ≤ cond.length) :
    validateSpecs eps = false ↔
      ∃ p ∈ eps,
        ((∃ o ∈ p.2.options, o.2.type ∉ knownArgumentTypes) ∨
         (∃ cond ∈ p.2.required_if,
            ¬refersToDeclared (cond.getD 0 ynull) (p.2.options.map (fun q => q.1)) ∨
            ∃ rp ∈ pyWrapList (cond.getD 2 ynull),
              ¬refersToDeclared rp (p.2.options.map (fun q => q.1))) ∨
         (∃ cond ∈ p.2.required_one_of, ∃ q ∈ cond,
            ¬refersToDeclared q (p.2.options.map (fun r => r.1))) ∨
         (∃ cond ∈ p.2.mutually_exclusive, ∃ q ∈ cond,
            ¬refersToDeclared q (p.2.options.map (fun r => r.1))) ∨
         (∃ cond ∈ p.2.required_together, ∃ q ∈ cond,
            ¬refersToDeclared q (p.2.options.map (fun r => r.1)))) := by
  rw [validateSpecs_eq]
  rw [show ((eps.all fun p => entryOK p.2) = false) ↔ ¬((eps.all fun p => entryOK p.2) = true) by simp]
  simp only [List.all_eq_true, not_forall, Classical.not_imp, Bool.not_eq_true]
  constructor
  · rintro ⟨p, hp, hbad⟩
    exact ⟨p, hp, (entryOK_false_iff p.2 (hwf p hp)).mp hbad⟩
  · rintro ⟨p, hp, hbad⟩
    exact ⟨p, hp, (entryOK_false_iff p.2 (hwf p hp)).mpr hbad⟩

/-- c9Eps is a concrete entry-point mapping with one invalid option type,
used to witness the validation rule. -/
def c9Eps : List (String × EntryPointSpec) :=
  [("main", { name := "main", options := [("x", { name := "x", type := "foo" })] })]

theorem spec_validation_rule_witness :
    (∀ p ∈ c9Eps, ∀ cond ∈ p.2.required_if, 3 ≤ cond.length) ∧
    (validateSpecs c9Eps = false ↔
      ∃ p ∈ c9Eps,
        ((∃ o ∈ p.2.options, o.2.type ∉ knownArgumentTypes) ∨
         (∃ cond ∈ p.2.required_if,
            ¬refersToDeclared (cond.getD 0 ynull) (p.2.options.map (fun q => q.1)) ∨
            ∃ rp ∈ pyWrapList (cond.getD 2 ynull),
              ¬refersToDeclared rp (p.2.options.map (fun q => q.1))) ∨
         (∃ cond ∈ p.2.required_one_of, ∃ q ∈ cond,
            ¬refersToDeclared q (p.2.options.map (fun r => r.1))) ∨
         (∃ cond ∈ p.2.mutually_exclusive, ∃ q ∈ cond,
            ¬refersToDeclared q (p.2.options.map (fun r => r.1))) ∨
         (∃ cond ∈ p.2.required_together, ∃ q ∈ cond,
            ¬refersToDeclared q (p.2.options.map (fun r => r.1))))) :=
  ⟨by simp [c9Eps], spec_validation_rule _ (by simp [c9Eps])⟩

end ArgSpecGen

namespace ArgSpecGen

open YVal

theorem lookupKey_upsert_self {α : Type} (l : List (String × α)) (k : String) (v : α) :
    lookupKey (upsertKey l k v) k = some v := by
  induction l with
  | nil => simp [upsertKey, lookupKey]
  | cons p rest ih =>
      by_cases h : p.1 = k
      · simp [upsertKey, h, lookupKey]
      · simp [upsertKey, h, lookupKey, ih]

theorem lookupKey_upsert_other {α : Type} (l : List (String × α)) (k n : String) (v : α)
    (h : n ≠ k) : lookupKey (upsertKey l k v) n = lookupKey l n := by
  induction l with
  | nil =>
      simp only [upsertKey, lookupKey]
      rw [if_neg (fun hh => h hh.symm)]
  | cons p rest ih =>
      by_cases hp : p.1 = k
      · simp only [upsertKey, if_pos hp, lookupKey]
        rw [if_neg (fun hh => h hh.symm), if_neg (fun hh : p.1 = n => h (hp ▸ hh).symm)]
      · simp only [upsertKey, if_neg hp, lookupKey, ih]

theorem hasKey_upsert {α : Type} (l : List (String × α)) (k n : String) (v : α) :
    hasKey (upsertKey l k v) n = (n = k || hasKey l n) := by
  by_cases h : n = k
  · subst h; simp [hasKey, lookupKey_upsert_self]
  · simp [hasKey, lookupKey_upsert_other l k n v h, h]

theorem lookupKey_eq_none_iff {α : Type} (l : List (String × α)) (n : String) :
    lookupKey l n = none ↔ n ∉ l.map Prod.fst := by
  induction l with
  | nil => simp [lookupKey]
  | cons p rest ih =>
      simp only [lookupKey, List.map_cons, List.mem_cons]
      by_cases h : p.1 = n
      · simp [h]
      · have h2 : ¬n = p.1 := fun hh => h hh.symm
        rw [if_neg h, ih]
        simp [h2, not_or]

theorem hasKey_iff_mem_keys {α : Type} (l : List (String × α)) (n : String) :
    hasKey l n = true ↔ n ∈ l.map Prod.fst := by
  unfold hasKey
  rw [Option.isSome_iff_ne_none]
  constructor
  · intro h
    by_contra hmem
    exact h ((lookupKey_eq_none_iff l n).mpr hmem)
  · intro hmem h
    exact ((lookupKey_eq_none_iff l n).mp h) hmem

theorem lookup_foldl_upsert_pairs {α β : Type} (g : String × β → α) (f : String → β → α)
    (hg : ∀ p : String × β, g p = f p.1 p.2) :
    ∀ (l : List (String × β)) (acc : List (String × α)),
      (l.map Prod.fst).Nodup →
      ∀ n, lookupKey (l.foldl (fun o p => upsertKey o p.1 (g p)) acc) n =
        (match lookupKey l n with
         | some v => some (f n v)
         | none => lookupKey acc n) := by
  intro l
  induction l with
  | nil => intro acc _ n; simp [lookupKey]
  | cons p rest ih =>
      intro acc hnd n
      simp only [List.map_cons, List.nodup_cons] at hnd
      rw [List.foldl_cons, ih _ hnd.2 n]
      by_cases hn : p.1 = n
      · have hrest : lookupKey rest n = none := by
          rw [lookupKey_eq_none_iff]
          intro hmem
          exact hnd.1 (hn ▸ hmem)
        rw [hg p, hn]
        conv_rhs => rw [lookupKey, if_pos hn]
        simp [hrest, lookupKey_upsert_self]
      · cases hcase : lookupKey rest n with
        | some v => simp [lookupKey, hn, hcase]
        | none =>
            simp [lookupKey, hn, hcase,
              lookupKey_upsert_other _ _ _ _ (fun hh : n = p.1 => hn hh.symm)]

end ArgSpecGen

namespace ArgSpecGen

open YVal

theorem lookupKey_eq_none_of_hasKey_false {α : Type} (l : List (String × α)) (n : String)
    (h : hasKey l n = false) : lookupKey l n = none := by
  unfold hasKey at h
  exact Option.not_isSome_iff_eq_none.mp (by simp [h])

theorem ite_mem_cons_ne {α : Type} (x y : String) (l : List String) (a b : α)
    (hne : ¬x = y) : (if x ∈ y :: l then a else b) = (if x ∈ l then a else b) := by
  by_cases hm : x ∈ l
  · rw [if_pos hm, if_pos (List.mem_cons.mpr (Or.inr hm))]
  · rw [if_neg hm, if_neg (fun hh => by
      rcases List.mem_cons.mp hh with h1 | h2
      · exact hne h1
      · exact hm h2)]

theorem lookup_guarded_layer_pairs {α β : Type} (g : String × β → α) (f : String → α)
    (hg : ∀ p : String × β, g p = f p.1) :
    ∀ (l : List (String × β)) (acc : List (String × α)) (n : String),
      lookupKey (l.foldl (fun o p => if hasKey o p.1 then o else upsertKey o p.1 (g p)) acc) n =
        (if hasKey acc n then lookupKey acc n
         else if n ∈ l.map Prod.fst then some (f n) else none) := by
  intro l
  induction l with
  | nil =>
      intro acc n
      by_cases hk : hasKey acc n
      · simp [hk]
      · simp [hk, lookupKey_eq_none_of_hasKey_false acc n (by simpa using hk)]
  | cons p rest ih =>
      intro acc n
      rw [List.foldl_cons, ih, List.map_cons]
      by_cases hpp : hasKey acc p.1
      · rw [if_pos hpp]
        by_cases hna : hasKey acc n
        · rw [if_pos hna, if_pos hna]
        · rw [if_neg hna, if_neg hna]
          have hnp : ¬n = p.1 := fun hh => hna (hh ▸ hpp)
          exact (ite_mem_cons_ne n p.1 _ _ _ hnp).symm
      · rw [if_neg hpp]
        by_cases hnp : n = p.1
        · have h1 : hasKey (upsertKey acc p.1 (g p)) n = true := by
            rw [hasKey_upsert, hnp]; simp
          rw [if_pos h1, hg p, hnp, lookupKey_upsert_self, if_neg (fun hh => hpp hh),
            if_pos (List.mem_cons.mpr (Or.inl rfl))]
        · have h1 : hasKey (upsertKey acc p.1 (g p)) n = hasKey acc n := by
            rw [hasKey_upsert]; simp [hnp]
          rw [h1]
          by_cases hna : hasKey acc n
          · rw [if_pos hna, if_pos hna, lookupKey_upsert_other _ _ _ _ hnp]
          · rw [if_neg hna, if_neg hna]
            exact (ite_mem_cons_ne n p.1 _ _ _ hnp).symm

theorem lookup_guarded_layer_names {α : Type} (f : String → α) :
    ∀ (l : List String) (acc : List (String × α)) (n : String),
      lookupKey (l.foldl (fun o m => if hasKey o m then o else upsertKey o m (f m)) acc) n =
        (if hasKey acc n then lookupKey acc n
         else if n ∈ l then some (f n) else none) := by
  intro l
  induction l with
  | nil =>
      intro acc n
      by_cases hk : hasKey acc n
      · simp [hk]
      · simp [hk, lookupKey_eq_none_of_hasKey_false acc n (by simpa using hk)]
  | cons m rest ih =>
      intro acc n
      rw [List.foldl_cons, ih]
      by_cases hpp : hasKey acc m
      · rw [if_pos hpp]
        by_cases hna : hasKey acc n
        · rw [if_pos hna, if_pos hna]
        · rw [if_neg hna, if_neg hna]
          have hnp : ¬n = m := fun hh => hna (hh ▸ hpp)
          exact (ite_mem_cons_ne n m _ _ _ hnp).symm
      · rw [if_neg hpp]
        by_cases hnp : n = m
        · have h1 : hasKey (upsertKey acc m (f m)) n = true := by
            rw [hasKey_upsert, hnp]; simp
          rw [if_pos h1, hnp, lookupKey_upsert_self, if_neg (fun hh => hpp hh),
            if_pos (List.mem_cons.mpr (Or.inl rfl))]
        · have h1 : hasKey (upsertKey acc m (f m)) n = hasKey acc n := by
            rw [hasKey_upsert]; simp [hnp]
          rw [h1]
          by_cases hna : hasKey acc n
          · rw [if_pos hna, if_pos hna, lookupKey_upsert_other _ _ _ _ hnp]
          · rw [if_neg hna, if_neg hna]
            exact (ite_mem_cons_ne n m _ _ _ hnp).symm

end ArgSpecGen

namespace ArgSpecGen

open YVal

theorem hasKey_foldl_upsert_pairs {α β : Type} (g : String × β → α) (f : String → β → α)
    (hg : ∀ p : String × β, g p = f p.1 p.2)
    (l : List (String × β)) (acc : List (String × α))
    (hnd : (l.map Prod.fst).Nodup) (n : String) :
    hasKey (l.foldl (fun o p => upsertKey o p.1 (g p)) acc) n =
      (hasKey l n || hasKey acc n) := by
  unfold hasKey
  rw [lookup_foldl_upsert_pairs g f hg l acc hnd n]
  cases lookupKey l n <;> simp

theorem hasKey_guarded_layer_pairs {α β : Type} (g : String × β → α) (f : String → α)
    (hg : ∀ p : String × β, g p = f p.1)
    (l : List (String × β)) (acc : List (String × α)) (n : String) :
    hasKey (l.foldl (fun o p => if hasKey o p.1 then o else upsertKey o p.1 (g p)) acc) n =
      (hasKey acc n || decide (n ∈ l.map Prod.fst)) := by
  show (lookupKey (l.foldl
    (fun o p => if hasKey o p.1 then o else upsertKey o p.1 (g p)) acc) n).isSome = _
  rw [lookup_guarded_layer_pairs g f hg l acc n]
  by_cases hk : hasKey acc n
  · rw [if_pos hk]
    show hasKey acc n = _
    rw [hk]; simp
  · have hk2 : hasKey acc n = false := by simpa using hk
    rw [if_neg hk, hk2, Bool.false_or]
    by_cases hm : n ∈ l.map Prod.fst <;> simp [hm]

theorem hasKey_guarded_layer_names {α : Type} (f : String → α)
    (l : List String) (acc : List (String × α)) (n : String) :
    hasKey (l.foldl (fun o m => if hasKey o m then o else upsertKey o m (f m)) acc) n =
      (hasKey acc n || decide (n ∈ l)) := by
  show (lookupKey (l.foldl
    (fun o m => if hasKey o m then o else upsertKey o m (f m)) acc) n).isSome = _
  rw [lookup_guarded_layer_names f l acc n]
  by_cases hk : hasKey acc n
  · rw [if_pos hk]
    show hasKey acc n = _
    rw [hk]; simp
  · have hk2 : hasKey acc n = false := by simpa using hk
    rw [if_neg hk, hk2, Bool.false_or]
    by_cases hm : n ∈ l <;> simp [hm]

end ArgSpecGen

namespace ArgSpecGen

open YVal

theorem decide_mem_keys_eq_hasKey {α : Type} (l : List (String × α)) (n : String) :
    decide (n ∈ l.map Prod.fst) = hasKey l n := by
  by_cases h : n ∈ l.map Prod.fst
  · simp [h, (hasKey_iff_mem_keys l n).mpr h]
  · cases hhk : hasKey l n with
    | true => exact absurd ((hasKey_iff_mem_keys l n).mp hhk) h
    | false => simp [h]

theorem combineVariables_lookup (defaults vars : List (String × YVal))
    (taskVars templateVars : List String) (n : String)
    (hnd : (defaults.map Prod.fst).Nodup) :
    lookupKey (combineVariables defaults vars taskVars templateVars) n =
      (if hasKey defaults n then
        (lookupKey defaults n).map (fun v =>
          ({ type := "str", default := some v, required := false,
             description := "Variable from defaults: " ++ n } : VarRecord))
      else if hasKey vars n then
        some { type := "str", required := true,
               description := "Variable from vars: " ++ n }
      else if n ∈ taskVars then
        some { type := "str", required := true,
               description := "Variable used in tasks: " ++ n }
      else if n ∈ templateVars then
        some { type := "str", required := true,
               description := "Variable used in templates: " ++ n }
      else none) := by
  unfold combineVariables
  simp only []
  rw [lookup_guarded_layer_names]
  rw [hasKey_guarded_layer_names, lookup_guarded_layer_names]
  rw [hasKey_guarded_layer_pairs _
        (fun k => ({ type := "str", required := true,
                     description := "Variable from vars: " ++ k } : VarRecord))
        (fun p => rfl),
      lookup_guarded_layer_pairs _
        (fun k => ({ type := "str", required := true,
                     description := "Variable from vars: " ++ k } : VarRecord))
        (fun p => rfl)]
  rw [hasKey_foldl_upsert_pairs _
        (fun k v => ({ type := "str", required := false,
                       description := "Variable from defaults: " ++ k,
                       default := some v } : VarRecord))
        (fun p => rfl) _ _ hnd,
      lookup_foldl_upsert_pairs _
        (fun k v => ({ type := "str", required := false,
                       description := "Variable from defaults: " ++ k,
                       default := some v } : VarRecord))
        (fun p => rfl) _ _ hnd]
  by_cases hd : hasKey defaults n
  · cases hc : lookupKey defaults n with
    | none => exact absurd hd (by simp [hasKey, hc])
    | some v => simp [hd, hc]
  · have hd2 : hasKey defaults n = false := by simpa using hd
    have hun : lookupKey defaults n = none := lookupKey_eq_none_of_hasKey_false _ _ hd2
    by_cases hv : hasKey vars n
    · have hvm : n ∈ vars.map Prod.fst := (hasKey_iff_mem_keys _ _).mp hv
      have hv3 : (lookupKey vars n).isSome = true := hv
      simp [hd2, hun, hv, hv3, hvm, hasKey, lookupKey]
    · have hv2 : hasKey vars n = false := by simpa using hv
      have hv4 : (lookupKey vars n).isSome = false := hv2
      have hvm : ¬n ∈ vars.map Prod.fst := fun hh => hv ((hasKey_iff_mem_keys _ _).mpr hh)
      by_cases ht : n ∈ taskVars
      · simp [hd2, hun, hv2, hv4, hvm, ht, hasKey, lookupKey]
      · by_cases hp : n ∈ templateVars
        · simp [hd2, hun, hv2, hv4, hvm, ht, hp, hasKey, lookupKey]
        · simp [hd2, hun, hv2, hv4, hvm, ht, hp, hasKey, lookupKey]

end ArgSpecGen

namespace ArgSpecGen

open YVal

/-- c8Analysis is a minimal role analysis in which the task file main uses
the variable db_host, with empty defaults and vars. -/
def c8Analysis : Analysis :=
  { taskFiles := ["main"], fileVariables := [("main", ["db_host"])] }

/-- Claim C8 counterexample: db_host is discovered in the main task file
and is shadowed by no defaults or vars key, yet it does not appear in the
role-level variables mapping, because the task-variable layer of the
combination step reads the task_vars set that nothing ever populates (the
discoveries live in file_variables). -/
theorem flat_variables_counterexample :
    "db_host" ∈ entryFileVarsOf c8Analysis "main" ∧
    hasKey c8Analysis.defaults "db_host" = false ∧
    hasKey c8Analysis.vars "db_host" = false ∧
    hasKey (analysisVariables c8Analysis) "db_host" = false := by
  refine ⟨by decide, rfl, rfl, rfl⟩

/-- Claim C8 (amended): the combination step layers defaults-derived
records (optional, typed str, carrying the default), then vars-derived,
then task-variable-derived, then template-variable-derived records with the
first writer winning per name; but the analysis always feeds empty task and
template variable sets into it, so the role-level variables mapping holds a
name exactly when it is a defaults or vars key. -/
theorem flat_variables_layering :
    (∀ (defaults vars : List (String × YVal)) (taskVars templateVars : List String)
       (n : String),
      (defaults.map Prod.fst).Nodup →
      lookupKey (combineVariables defaults vars taskVars templateVars) n =
        (if hasKey defaults n then
          (lookupKey defaults n).map (fun v =>
            ({ type := "str", default := some v, required := false,
               description := "Variable from defaults: " ++ n } : VarRecord))
        else if hasKey vars n then
          some { type := "str", required := true,
                 description := "Variable from vars: " ++ n }
        else if n ∈ taskVars then
          some { type := "str", required := true,
                 description := "Variable used in tasks: " ++ n }
        else if n ∈ templateVars then
          some { type := "str", required := true,
                 description := "Variable used in templates: " ++ n }
        else none)) ∧
    (∀ A : Analysis, analysisVariables A = combineVariables A.defaults A.vars [] []) ∧
    (∀ (A : Analysis) (n : String), (A.defaults.map Prod.fst).Nodup →
      hasKey (analysisVariables A) n = (hasKey A.defaults n || hasKey A.vars n)) := by
  refine ⟨fun d v tv pv n hnd => combineVariables_lookup d v tv pv n hnd, fun A => rfl, ?_⟩
  intro A n hnd
  unfold analysisVariables
  have h := combineVariables_lookup A.defaults A.vars [] [] n hnd
  show (lookupKey (combineVariables A.defaults A.vars [] []) n).isSome = _
  rw [h]
  by_cases hd : hasKey A.defaults n
  · rw [if_pos hd, hd]
    cases hc : lookupKey A.defaults n with
    | none => exact absurd hd (by simp [hasKey, hc])
    | some v => simp
  · have hd2 : hasKey A.defaults n = false := by simpa using hd
    rw [if_neg hd, hd2, Bool.false_or]
    by_cases hv : hasKey A.vars n
    · rw [if_pos hv, hv]; simp
    · have hv2 : hasKey A.vars n = false := by simpa using hv
      rw [if_neg hv, hv2]
      simp

/-- Witness for the amended layering theorem at concrete inputs. -/
theorem flat_variables_layering_witness :
    (([("a", ystr "v")] : List (String × YVal)).map Prod.fst).Nodup ∧
    lookupKey (combineVariables [("a", ystr "v")] [] ["db_host"] []) "db_host" =
      some { type := "str", required := true,
             description := "Variable used in tasks: db_host" } := by
  constructor
  · simp
  · have h := flat_variables_layering.1 [("a", ystr "v")] [] ["db_host"] [] "db_host" (by simp)
    rw [h]
    rfl

end ArgSpecGen

namespace ArgSpecGen

open YVal

theorem filter_length_le {α : Type} (p q : α → Bool) (l : List α)
    (himp : ∀ x, p x = true → q x = true) :
    (l.filter p).length ≤ (l.filter q).length := by
  induction l with
  | nil => simp
  | cons b rest ih =>
      cases hb : p b
      · have : (List.filter p (b :: rest)).length = (rest.filter p).length := by
          simp [List.filter_cons, hb]
        rw [this]
        exact le_trans ih (by cases hq : q b <;> simp [List.filter_cons, hq])
      · have hq := himp b hb
        simp [List.filter_cons, hb, hq]
        exact ih

theorem filter_length_lt {α : Type} (p q : α → Bool) (l : List α)
    (himp : ∀ x, p x = true → q x = true)
    (a : α) (ha : a ∈ l) (hqa : q a = true) (hpa : p a = false) :
    (l.filter p).length < (l.filter q).length := by
  induction l with
  | nil => cases ha
  | cons b rest ih =>
      rcases List.mem_cons.mp ha with h1 | h2
      · subst h1
        simp only [List.filter_cons, hpa, hqa, Bool.false_eq_true, if_false, if_true,
          List.length_cons]
        exact Nat.lt_succ_of_le (filter_length_le p q rest himp)
      · cases hb : p b
        · have h3 := ih h2
          simp only [List.filter_cons, hb, Bool.false_eq_true, if_false]
          exact lt_of_lt_of_le h3 (by cases hq : q b <;> simp [List.filter_cons, hq])
        · have hq := himp b hb
          simp only [List.filter_cons, hb, hq, if_true, List.length_cons]
          exact Nat.succ_lt_succ (ih h2)

/-- collectUniverse lists every file name the recursive collection can ever
mark visited for a given entry point: the direct includes plus every key
and every listed include of the include map. -/
def collectUniverse (A : Analysis) (epName : String) : List String :=
  includesOf A epName ++ A.fileIncludesMap.map (fun p => p.1) ++
    (A.fileIncludesMap.map (fun p => p.2)).flatten

/-- visitGap counts the universe entries not yet visited. -/
def visitGap (A : Analysis) (epName : String) (visited : List String) : Nat :=
  ((collectUniverse A epName).filter (fun x => !visited.contains x)).length

theorem visitGap_le (A : Analysis) (epName : String) (v1 v2 : List String)
    (hsub : v1 ⊆ v2) : visitGap A epName v2 ≤ visitGap A epName v1 := by
  apply filter_length_le
  intro x hx
  simp only [Bool.not_eq_true'] at hx ⊢
  cases hc : v1.contains x
  · rfl
  · exfalso
    have h2 : v2.contains x = true := List.elem_iff.mpr (hsub (List.elem_iff.mp hc))
    rw [h2] at hx
    cases hx

theorem visitGap_lt (A : Analysis) (epName : String) (f : String) (visited : List String)
    (hf : f ∈ collectUniverse A epName) (hnv : visited.contains f = false) :
    visitGap A epName (f :: visited) < visitGap A epName visited := by
  have himp : ∀ x, (fun x => !(f :: visited).contains x) x = true →
      (fun x => !visited.contains x) x = true := by
    intro x hx
    simp only [Bool.not_eq_true'] at hx ⊢
    simp only [List.contains_cons] at hx
    exact (Bool.or_eq_false_iff.mp hx).2
  refine filter_length_lt _ _ _ himp f hf ?_ (by simp)
  simp only [Bool.not_eq_true']
  exact hnv

end ArgSpecGen

namespace ArgSpecGen

open YVal

theorem collectAux_visited_mono (A : Analysis) (exOpts : List (String × ExistingOpt)) :
    ∀ (fuel : Nat) (f : String) (st : MergeSt),
      st.visited ⊆ (collectAux A exOpts fuel f st).visited := by
  intro fuel
  induction fuel with
  | zero => intro f st; exact fun x hx => hx
  | succ n ih =>
      intro f st
      simp only [collectAux]
      by_cases hv : st.visited.contains f
      · simp only [hv, if_true]
        exact fun x hx => hx
      · simp only [hv, Bool.false_eq_true, if_false]
        have hfold : ∀ (subs : List String) (st2 : MergeSt),
            st2.visited ⊆ (subs.foldl (fun s sub => collectAux A exOpts n sub s) st2).visited := by
          intro subs
          induction subs with
          | nil => intro st2; exact fun x hx => hx
          | cons sub rest ihs =>
              intro st2
              rw [List.foldl_cons]
              exact fun x hx => ihs _ (ih sub st2 hx)
        intro x hx
        cases hlv : lookupKey A.fileVariables f with
        | some vars =>
            simp only [hlv]
            exact hfold _ _ (List.mem_cons.mpr (Or.inr hx))
        | none =>
            simp only [hlv]
            exact hfold _ _ (List.mem_cons.mpr (Or.inr hx))

end ArgSpecGen

namespace ArgSpecGen

open YVal

theorem collectAux_stable (A : Analysis) (exOpts : List (String × ExistingOpt))
    (epName : String) :
    ∀ (fuel1 fuel2 : Nat) (f : String) (st : MergeSt),
      visitGap A epName st.visited < fuel1 →
      visitGap A epName st.visited < fuel2 →
      collectAux A exOpts fuel1 f st = collectAux A exOpts fuel2 f st := by
  intro fuel1
  induction fuel1 with
  | zero => intro fuel2 f st h1 h2; exact absurd h1 (Nat.not_lt_zero _)
  | succ n1 ih =>
      intro fuel2 f st h1 h2
      cases fuel2 with
      | zero => exact absurd h2 (Nat.not_lt_zero _)
      | succ m =>
          simp only [collectAux]
          by_cases hv : st.visited.contains f
          · rw [if_pos hv, if_pos hv]
          · simp only [hv, Bool.false_eq_true, if_false]
            by_cases hkey : hasKey A.fileIncludesMap f
            · have hfM : f ∈ collectUniverse A epName := by
                unfold collectUniverse
                have := (hasKey_iff_mem_keys _ _).mp hkey
                simp only [List.mem_append]
                exact Or.inl (Or.inr this)
              have hgap2 : visitGap A epName (f :: st.visited) < visitGap A epName st.visited :=
                visitGap_lt A epName f st.visited hfM (by simpa using hv)
              have hfold : ∀ (subs : List String) (st2 : MergeSt),
                  visitGap A epName st2.visited ≤ visitGap A epName (f :: st.visited) →
                  subs.foldl (fun s sub => collectAux A exOpts n1 sub s) st2 =
                    subs.foldl (fun s sub => collectAux A exOpts m sub s) st2 := by
                intro subs
                induction subs with
                | nil => intro st2 _; rfl
                | cons sub rest ihs =>
                    intro st2 hg
                    rw [List.foldl_cons, List.foldl_cons]
                    have hlt1 : visitGap A epName st2.visited < n1 := by omega
                    have hlt2 : visitGap A epName st2.visited < m := by omega
                    have heq := ih m sub st2 hlt1 hlt2
                    rw [heq]
                    apply ihs
                    exact le_trans
                      (visitGap_le A epName _ _ (collectAux_visited_mono A exOpts m sub st2)) hg
              cases hlv : lookupKey A.fileVariables f <;> simp only [hlv] <;>
                exact hfold _ _ (le_refl _)
            · have hinc : includesOf A f = [] := by
                unfold includesOf
                cases hc : lookupKey A.fileIncludesMap f with
                | none => rfl
                | some xs =>
                    exact absurd (show hasKey A.fileIncludesMap f = true by
                      simp [hasKey, hc]) hkey
              rw [hinc]
              cases hlv : lookupKey A.fileVariables f <;> simp only [hlv, List.foldl_nil]

end ArgSpecGen

namespace ArgSpecGen

open YVal

theorem includeMap_size_eq (l : List (String × List String)) :
    ∀ acc : Nat, l.foldl (fun n p => n + 1 + p.2.length) acc =
      acc + (l.map (fun p => p.1)).length + ((l.map (fun p => p.2)).flatten).length := by
  induction l with
  | nil => intro acc; simp
  | cons p rest ih =>
      intro acc
      rw [List.foldl_cons, ih]
      simp [List.length_append]
      omega

theorem gap_lt_fuel (A : Analysis) (epName : String) (visited : List String) :
    visitGap A epName visited < collectFuel A epName := by
  have h1 : visitGap A epName visited ≤ (collectUniverse A epName).length :=
    List.length_filter_le _ _
  have h2 : (collectUniverse A epName).length < collectFuel A epName := by
    unfold collectUniverse collectFuel
    have h3 := includeMap_size_eq A.fileIncludesMap 0
    simp only [List.length_append]
    omega
  omega

theorem mergeIncluded_fuel_stable (A : Analysis) (exOpts : List (String × ExistingOpt))
    (epName : String) (opts0 : List (String × ArgumentSpec)) (extra : Nat) :
    mergeIncludedStFuel A exOpts epName opts0 (collectFuel A epName + extra) =
      mergeIncludedSt A exOpts epName opts0 := by
  unfold mergeIncludedSt mergeIncludedStFuel
  simp only []
  have hfold : ∀ (lst : List String) (st : MergeSt),
      lst.foldl (fun st f => collectAux A exOpts (collectFuel A epName + extra) f st) st =
        lst.foldl (fun st f => collectAux A exOpts (collectFuel A epName) f st) st := by
    intro lst
    induction lst with
    | nil => intro st; rfl
    | cons f rest ihs =>
        intro st
        rw [List.foldl_cons, List.foldl_cons,
          collectAux_stable A exOpts epName _ _ f st
            (by have := gap_lt_fuel A epName st.visited; omega)
            (gap_lt_fuel A epName st.visited)]
        exact ihs _
  exact hfold _ _

theorem collectAux_visited_nodup (A : Analysis) (exOpts : List (String × ExistingOpt)) :
    ∀ (fuel : Nat) (f : String) (st : MergeSt),
      st.visited.Nodup → (collectAux A exOpts fuel f st).visited.Nodup := by
  intro fuel
  induction fuel with
  | zero => intro f st h; exact h
  | succ n ih =>
      intro f st h
      simp only [collectAux]
      by_cases hv : st.visited.contains f
      · rw [if_pos hv]; exact h
      · simp only [hv, Bool.false_eq_true, if_false]
        have hnodup2 : (f :: st.visited).Nodup := by
          refine List.nodup_cons.mpr ⟨?_, h⟩
          intro hmem
          exact hv (List.elem_iff.mpr hmem)
        have hfold : ∀ (subs : List String) (st2 : MergeSt),
            st2.visited.Nodup →
            ((subs.foldl (fun s sub => collectAux A exOpts n sub s) st2).visited).Nodup := by
          intro subs
          induction subs with
          | nil => intro st2 hh; exact hh
          | cons sub rest ihs =>
              intro st2 hh
              rw [List.foldl_cons]
              exact ihs _ (ih sub st2 hh)
        cases hlv : lookupKey A.fileVariables f <;> simp only [hlv] <;>
          exact hfold _ _ hnodup2

theorem mergeIncluded_visited_nodup (A : Analysis) (exOpts : List (String × ExistingOpt))
    (epName : String) (opts0 : List (String × ArgumentSpec)) :
    (mergeIncludedSt A exOpts epName opts0).visited.Nodup := by
  unfold mergeIncludedSt mergeIncludedStFuel
  simp only []
  have hfold : ∀ (lst : List String) (st : MergeSt),
      st.visited.Nodup →
      ((lst.foldl (fun st f => collectAux A exOpts (collectFuel A epName) f st) st).visited).Nodup := by
    intro lst
    induction lst with
    | nil => intro st h; exact h
    | cons f rest ihs =>
        intro st h
        rw [List.foldl_cons]
        exact ihs _ (collectAux_visited_nodup A exOpts _ f st h)
  exact hfold _ _ List.nodup_nil

/-- c4Analysis is the cyclic include graph of the claim: main includes a,
a includes b, b includes a, with one variable in a and one in b. -/
def c4Analysis : Analysis :=
  { taskFiles := ["main", "a", "b"],
    fileIncludesMap := [("main", ["a"]), ("a", ["b"]), ("b", ["a"])],
    fileVariables := [("a", ["va"]), ("b", ["vb"])] }

/-- Claim C4: the recursive collection of variables from included task
files terminates on every include graph, cyclic ones included: above the
canonical bound the result no longer depends on the recursion budget (so
the source recursion, whose depth is bounded by the visited set, reaches
exactly this state), each file is visited at most once (the visited list is
duplicate-free), and on the concrete cycle main-a-b-a the variables of a
and of b each enter the options exactly once. -/
theorem collect_recursive_cycle_tolerance :
    (∀ (A : Analysis) (exOpts : List (String × ExistingOpt)) (epName : String)
       (opts0 : List (String × ArgumentSpec)) (extra : Nat),
      mergeIncludedStFuel A exOpts epName opts0 (collectFuel A epName + extra) =
        mergeIncludedSt A exOpts epName opts0) ∧
    (∀ (A : Analysis) (exOpts : List (String × ExistingOpt)) (epName : String)
       (opts0 : List (String × ArgumentSpec)),
      (mergeIncludedSt A exOpts epName opts0).visited.Nodup) ∧
    ((mergeIncludedVariables c4Analysis [] "main" []).map Prod.fst).count "va" = 1 ∧
    ((mergeIncludedVariables c4Analysis [] "main" []).map Prod.fst).count "vb" = 1 ∧
    (mergeIncludedSt c4Analysis [] "main" []).visited = ["b", "a"] := by
  refine ⟨mergeIncluded_fuel_stable, mergeIncluded_visited_nodup, ?_, ?_, ?_⟩ <;> decide

end ArgSpecGen

namespace ArgSpecGen

open YVal

/-- versionRule restates the claimed version_added assignment rule: keep a
recorded version, leave a merely-listed variable unset, else stamp the
current version. -/
def versionRule (eo : ExistingOpt) (cur : String) : YVal :=
  if eo.version_added.truthy then eo.version_added
  else if eo.existing then ynull
  else ystr cur

theorem inferArgumentSpec_version (ctx : VariableContext) (n : String) (v : YVal)
    (eo : ExistingOpt) (cur : String) :
    (inferArgumentSpec ctx n v eo.description eo.version_added eo.existing cur).version_added =
      versionRule eo cur := rfl

theorem mem_upsert {α : Type} (l : List (String × α)) (k : String) (v : α)
    (p : String × α) (hp : p ∈ upsertKey l k v) : p = (k, v) ∨ p ∈ l := by
  induction l with
  | nil => simpa [upsertKey] using hp
  | cons q rest ih =>
      by_cases hq : q.1 = k
      · simp only [upsertKey, if_pos hq, List.mem_cons] at hp
        rcases hp with h1 | h2
        · exact Or.inl h1
        · exact Or.inr (List.mem_cons.mpr (Or.inr h2))
      · simp only [upsertKey, if_neg hq, List.mem_cons] at hp
        rcases hp with h1 | h2
        · exact Or.inr (List.mem_cons.mpr (Or.inl h1))
        · rcases ih h2 with h3 | h4
          · exact Or.inl h3
          · exact Or.inr (List.mem_cons.mpr (Or.inr h4))

theorem mem_of_lookup_some {α : Type} (l : List (String × α)) (n : String) (v : α)
    (h : lookupKey l n = some v) : (n, v) ∈ l := by
  induction l with
  | nil => cases h
  | cons q rest ih =>
      by_cases hq : q.1 = n
      · simp only [lookupKey, if_pos hq] at h
        cases h
        exact List.mem_cons.mpr (Or.inl (by rw [← hq]))
      · simp only [lookupKey, if_neg hq] at h
        exact List.mem_cons.mpr (Or.inr (ih h))

/-- versionOK states the version rule for every option in a mapping. -/
def versionOK (exOpts : List (String × ExistingOpt)) (cur : String)
    (opts : List (String × ArgumentSpec)) : Prop :=
  ∀ p ∈ opts, p.2.version_added = versionRule (getOpt exOpts p.1) cur

theorem versionOK_upsert (exOpts : List (String × ExistingOpt)) (cur : String)
    (l : List (String × ArgumentSpec)) (k : String) (v : ArgumentSpec)
    (h : versionOK exOpts cur l)
    (hv : v.version_added = versionRule (getOpt exOpts k) cur) :
    versionOK exOpts cur (upsertKey l k v) := by
  intro p hp
  rcases mem_upsert l k v p hp with h1 | h2
  · rw [h1]; exact hv
  · exact h p h2

theorem versionOK_addDefaults (A : Analysis) (exOpts : List (String × ExistingOpt)) :
    ∀ (l : List (String × YVal)) (acc : List (String × ArgumentSpec)),
      versionOK exOpts A.version acc →
      versionOK exOpts A.version
        (l.foldl (fun o p =>
          let eo := getOpt exOpts p.1
          upsertKey o p.1
            (inferArgumentSpec A.variableCtx p.1 p.2 eo.description eo.version_added
              eo.existing A.version)) acc) := by
  intro l
  induction l with
  | nil => intro acc h; exact h
  | cons p rest ih =>
      intro acc h
      rw [List.foldl_cons]
      exact ih _ (versionOK_upsert _ _ _ _ _ h (inferArgumentSpec_version _ _ _ _ _))

theorem versionOK_addVars (A : Analysis) (exOpts : List (String × ExistingOpt)) :
    ∀ (l : List (String × YVal)) (acc : List (String × ArgumentSpec)),
      versionOK exOpts A.version acc →
      versionOK exOpts A.version
        (l.foldl (fun o p =>
          if hasKey o p.1 then o
          else
            let eo := getOpt exOpts p.1
            let s := inferArgumentSpec A.variableCtx p.1 p.2 eo.description
              eo.version_added eo.existing A.version
            let s :=
              if eo.description.truthy then s
              else { s with description := ystr (yvalToStr s.description ++ " (defined in vars)") }
            upsertKey o p.1 s) acc) := by
  intro l
  induction l with
  | nil => intro acc h; exact h
  | cons p rest ih =>
      intro acc h
      rw [List.foldl_cons]
      apply ih
      by_cases hk : hasKey acc p.1
      · simpa [hk] using h
      · simp only [hk, Bool.false_eq_true, if_false]
        apply versionOK_upsert _ _ _ _ _ h
        by_cases hd : (getOpt exOpts p.1).description.truthy <;>
          simp [hd, inferArgumentSpec_version]

end ArgSpecGen

namespace ArgSpecGen

open YVal

theorem versionOK_addEntryPointVariables (A : Analysis)
    (exOpts : List (String × ExistingOpt)) (epName : String) :
    ∀ (l : List String) (acc : List (String × ArgumentSpec)),
      versionOK exOpts A.version acc →
      versionOK exOpts A.version
        (l.foldl (fun o n =>
          if hasKey o n then o
          else
            let eo := getOpt exOpts n
            let description :=
              if eo.description.truthy then eo.description
              else ystr ("Variable used in " ++ epName ++ " entry point")
            let versionAdded :=
              if eo.version_added.truthy then eo.version_added
              else if eo.existing then ynull
              else ystr A.version
            let hasDefault := hasKey A.defaults n || hasKey A.vars n
            upsertKey o n
              { name := n, type := "str", description := description,
                version_added := versionAdded, required := !hasDefault }) acc) := by
  intro l
  induction l with
  | nil => intro acc h; exact h
  | cons n rest ih =>
      intro acc h
      rw [List.foldl_cons]
      apply ih
      by_cases hk : hasKey acc n
      · simpa [hk] using h
      · simp only [hk, Bool.false_eq_true, if_false]
        exact versionOK_upsert _ _ _ _ _ h rfl

theorem versionOK_addIncludedVar (A : Analysis) (exOpts : List (String × ExistingOpt))
    (fileName : String) (o : List (String × ArgumentSpec)) (n : String)
    (h : versionOK exOpts A.version o) :
    versionOK exOpts A.version (addIncludedVar A exOpts fileName o n) := by
  unfold addIncludedVar
  by_cases hk : hasKey o n
  · simpa [hk] using h
  · simp only [hk, Bool.false_eq_true, if_false]
    exact versionOK_upsert _ _ _ _ _ h rfl

theorem versionOK_addIncludedVars_fold (A : Analysis) (exOpts : List (String × ExistingOpt))
    (fileName : String) :
    ∀ (vars : List String) (o : List (String × ArgumentSpec)),
      versionOK exOpts A.version o →
      versionOK exOpts A.version (vars.foldl (addIncludedVar A exOpts fileName) o) := by
  intro vars
  induction vars with
  | nil => intro o h; exact h
  | cons v rest ih =>
      intro o h
      rw [List.foldl_cons]
      exact ih _ (versionOK_addIncludedVar A exOpts fileName o v h)

theorem versionOK_collectAux (A : Analysis) (exOpts : List (String × ExistingOpt)) :
    ∀ (fuel : Nat) (f : String) (st : MergeSt),
      versionOK exOpts A.version st.options →
      versionOK exOpts A.version (collectAux A exOpts fuel f st).options := by
  intro fuel
  induction fuel with
  | zero => intro f st h; exact h
  | succ m ih =>
      intro f st h
      simp only [collectAux]
      by_cases hv : st.visited.contains f
      · rw [if_pos hv]; exact h
      · simp only [hv, Bool.false_eq_true, if_false]
        have hfold : ∀ (subs : List String) (st2 : MergeSt),
            versionOK exOpts A.version st2.options →
            versionOK exOpts A.version
              ((subs.foldl (fun s sub => collectAux A exOpts m sub s) st2).options) := by
          intro subs
          induction subs with
          | nil => intro st2 hh; exact hh
          | cons sub rest ihs =>
              intro st2 hh
              rw [List.foldl_cons]
              exact ihs _ (ih sub st2 hh)
        cases hlv : lookupKey A.fileVariables f with
        | some vars =>
            simp only [hlv]
            exact hfold _ _ (versionOK_addIncludedVars_fold A exOpts f vars _ h)
        | none =>
            simp only [hlv]
            exact hfold _ _ h

theorem versionOK_mergeIncluded (A : Analysis) (exOpts : List (String × ExistingOpt))
    (epName : String) (opts0 : List (String × ArgumentSpec))
    (h : versionOK exOpts A.version opts0) :
    versionOK exOpts A.version (mergeIncludedVariables A exOpts epName opts0) := by
  unfold mergeIncludedVariables mergeIncludedSt mergeIncludedStFuel
  simp only []
  have hdirect : ∀ (lst : List String) (o : List (String × ArgumentSpec)),
      versionOK exOpts A.version o →
      versionOK exOpts A.version
        (lst.foldl (fun o f =>
          match lookupKey A.fileVariables f with
          | some vars => vars.foldl (addIncludedVar A exOpts f) o
          | none => o) o) := by
    intro lst
    induction lst with
    | nil => intro o hh; exact hh
    | cons f rest ih =>
        intro o hh
        rw [List.foldl_cons]
        apply ih
        cases hlv : lookupKey A.fileVariables f with
        | some vars =>
            simp only [hlv]
            exact versionOK_addIncludedVars_fold A exOpts f vars o hh
        | none => simpa [hlv] using hh
  have hcollect : ∀ (lst : List String) (st : MergeSt),
      versionOK exOpts A.version st.options →
      versionOK exOpts A.version
        ((lst.foldl (fun st f => collectAux A exOpts (collectFuel A epName) f st) st).options) := by
    intro lst
    induction lst with
    | nil => intro st hh; exact hh
    | cons f rest ih =>
        intro st hh
        rw [List.foldl_cons]
        exact ih _ (versionOK_collectAux A exOpts _ f st hh)
  exact hcollect _ _ (hdirect _ _ h)

end ArgSpecGen

namespace ArgSpecGen

open YVal

/-- Claim C1: for every option produced by the merge engine, at whichever
of the four addition sites it was written (defaults, vars, own-file,
included-file), the version_added equals the single rule: keep a recorded
existing version, leave a merely-listed (existing, no stored version)
variable unset, else stamp the currently detected role version. -/
theorem version_added_assignment_rule (A : Analysis) (roleName epName : String)
    (ex : ExistingEntry) (n : String) (s : ArgumentSpec)
    (hlk : lookupKey (createEntryPointSpec epName roleName A ex).options n = some s) :
    s.version_added = versionRule (getOpt ex.options n) A.version := by
  have hok : versionOK ex.options A.version
      (createEntryPointSpec epName roleName A ex).options := by
    show versionOK ex.options A.version
      (mergeIncludedVariables A ex.options epName
        (addEntryPointVariables A ex.options epName
          (addVarsVariables A ex.options
            (addDefaultVariables A ex.options []))))
    apply versionOK_mergeIncluded
    apply versionOK_addEntryPointVariables
    apply versionOK_addVars
    apply versionOK_addDefaults
    intro p hp
    cases hp
  exact hok (n, s) (mem_of_lookup_some _ _ _ hlk)

/-- c1Analysis is a role with one default variable x and detected version
2.0.0. -/
def c1Analysis : Analysis := { defaults := [("x", ystr "v")], version := "2.0.0" }

/-- c1Existing lists x as previously present with no stored version, the
grandfather case. -/
def c1Existing : ExistingEntry := { options := [("x", { existing := true })] }

/-- c1Spec is the regenerated option for x in the grandfather scenario. -/
def c1Spec : ArgumentSpec :=
  (lookupKey (createEntryPointSpec "main" "r" c1Analysis c1Existing).options "x").getD
    { name := "" }

/-- Witness: the grandfathered variable x keeps no version_added after
regeneration even though the current version is 2.0.0. -/
theorem version_added_assignment_rule_witness :
    c1Spec.version_added = versionRule (getOpt c1Existing.options "x") c1Analysis.version ∧
    c1Spec.version_added = ynull :=
  ⟨version_added_assignment_rule c1Analysis "r" "main" c1Existing "x" c1Spec rfl, rfl⟩

end ArgSpecGen

namespace ArgSpecGen

open YVal

/-- ownFileSpec is the ArgumentSpec built by _add_entry_point_variables for
one variable of the entry-point file. -/
def ownFileSpec (A : Analysis) (exOpts : List (String × ExistingOpt))
    (epName n : String) : ArgumentSpec :=
  { name := n, type := "str",
    description :=
      if (getOpt exOpts n).description.truthy then (getOpt exOpts n).description
      else ystr ("Variable used in " ++ epName ++ " entry point"),
    version_added :=
      if (getOpt exOpts n).version_added.truthy then (getOpt exOpts n).version_added
      else if (getOpt exOpts n).existing then ynull
      else ystr A.version,
    required := !(hasKey A.defaults n || hasKey A.vars n) }

theorem lookup_addEntryPointVariables (A : Analysis) (exOpts : List (String × ExistingOpt))
    (epName : String) (acc : List (String × ArgumentSpec)) (n : String) :
    lookupKey (addEntryPointVariables A exOpts epName acc) n =
      (if hasKey acc n then lookupKey acc n
       else if n ∈ entryFileVarsOf A epName then some (ownFileSpec A exOpts epName n)
       else none) :=
  lookup_guarded_layer_names (fun m => ownFileSpec A exOpts epName m)
    (entryFileVarsOf A epName) acc n

theorem addIncludedVar_preserves (A : Analysis) (exOpts : List (String × ExistingOpt))
    (fileName : String) (o : List (String × ArgumentSpec)) (m n : String)
    (h : hasKey o n = true) :
    lookupKey (addIncludedVar A exOpts fileName o m) n = lookupKey o n ∧
    hasKey (addIncludedVar A exOpts fileName o m) n = true := by
  unfold addIncludedVar
  by_cases hk : hasKey o m
  · simp [hk, h]
  · have hmn : ¬n = m := fun hh => hk (hh ▸ h)
    simp only [hk, Bool.false_eq_true, if_false]
    constructor
    · exact lookupKey_upsert_other _ _ _ _ hmn
    · rw [hasKey_upsert]
      simp [h]

theorem includedVarsFold_preserves (A : Analysis) (exOpts : List (String × ExistingOpt))
    (fileName : String) :
    ∀ (vars : List String) (o : List (String × ArgumentSpec)) (n : String),
      hasKey o n = true →
      lookupKey (vars.foldl (addIncludedVar A exOpts fileName) o) n = lookupKey o n ∧
      hasKey (vars.foldl (addIncludedVar A exOpts fileName) o) n = true := by
  intro vars
  induction vars with
  | nil => intro o n h; exact ⟨rfl, h⟩
  | cons v rest ih =>
      intro o n h
      rw [List.foldl_cons]
      have h1 := addIncludedVar_preserves A exOpts fileName o v n h
      have h2 := ih (addIncludedVar A exOpts fileName o v) n h1.2
      exact ⟨h2.1.trans h1.1, h2.2⟩

theorem collectAux_preserves (A : Analysis) (exOpts : List (String × ExistingOpt)) :
    ∀ (fuel : Nat) (f : String) (st : MergeSt) (n : String),
      hasKey st.options n = true →
      lookupKey (collectAux A exOpts fuel f st).options n = lookupKey st.options n ∧
      hasKey (collectAux A exOpts fuel f st).options n = true := by
  intro fuel
  induction fuel with
  | zero => intro f st n h; exact ⟨rfl, h⟩
  | succ m ih =>
      intro f st n h
      simp only [collectAux]
      by_cases hv : st.visited.contains f
      · rw [if_pos hv]; exact ⟨rfl, h⟩
      · simp only [hv, Bool.false_eq_true, if_false]
        have hfold : ∀ (subs : List String) (st2 : MergeSt),
            hasKey st2.options n = true →
            lookupKey ((subs.foldl (fun s sub => collectAux A exOpts m sub s) st2).options) n =
              lookupKey st2.options n ∧
            hasKey ((subs.foldl (fun s sub => collectAux A exOpts m sub s) st2).options) n = true := by
          intro subs
          induction subs with
          | nil => intro st2 hh; exact ⟨rfl, hh⟩
          | cons sub rest ihs =>
              intro st2 hh
              rw [List.foldl_cons]
              have h1 := ih sub st2 n hh
              have h2 := ihs _ h1.2
              exact ⟨h2.1.trans h1.1, h2.2⟩
        cases hlv : lookupKey A.fileVariables f with
        | some vars =>
            simp only [hlv]
            have h1 := includedVarsFold_preserves A exOpts f vars st.options n h
            have h2 := hfold (includesOf A f)
              ⟨vars.foldl (addIncludedVar A exOpts f) st.options, f :: st.visited⟩ h1.2
            exact ⟨h2.1.trans h1.1, h2.2⟩
        | none =>
            simp only [hlv]
            exact hfold _ _ h

theorem mergeIncluded_preserves (A : Analysis) (exOpts : List (String × ExistingOpt))
    (epName : String) (opts0 : List (String × ArgumentSpec)) (n : String)
    (h : hasKey opts0 n = true) :
    lookupKey (mergeIncludedVariables A exOpts epName opts0) n = lookupKey opts0 n := by
  unfold mergeIncludedVariables mergeIncludedSt mergeIncludedStFuel
  simp only []
  have hdirect : ∀ (lst : List String) (o : List (String × ArgumentSpec)),
      hasKey o n = true →
      lookupKey (lst.foldl (fun o f =>
        match lookupKey A.fileVariables f with
        | some vars => vars.foldl (addIncludedVar A exOpts f) o
        | none => o) o) n =
        lookupKey o n ∧
      hasKey (lst.foldl (fun o f =>
        match lookupKey A.fileVariables f with
        | some vars => vars.foldl (addIncludedVar A exOpts f) o
        | none => o) o) n = true := by
    intro lst
    induction lst with
    | nil => intro o hh; exact ⟨rfl, hh⟩
    | cons f rest ih =>
        intro o hh
        rw [List.foldl_cons]
        cases hlv : lookupKey A.fileVariables f with
        | some vars =>
            simp only [hlv]
            have h1 := includedVarsFold_preserves A exOpts f vars o n hh
            have h2 := ih _ h1.2
            exact ⟨h2.1.trans h1.1, h2.2⟩
        | none =>
            simp only [hlv]
            exact ih o hh
  have hcollect : ∀ (lst : List String) (st : MergeSt),
      hasKey st.options n = true →
      lookupKey ((lst.foldl (fun st f => collectAux A exOpts (collectFuel A epName) f st) st).options) n =
        lookupKey st.options n ∧
      hasKey ((lst.foldl (fun st f => collectAux A exOpts (collectFuel A epName) f st) st).options) n = true := by
    intro lst
    induction lst with
    | nil => intro st hh; exact ⟨rfl, hh⟩
    | cons f rest ih =>
        intro st hh
        rw [List.foldl_cons]
        have h1 := collectAux_preserves A exOpts (collectFuel A epName) f st n hh
        have h2 := ih _ h1.2
        exact ⟨h2.1.trans h1.1, h2.2⟩
  have hd := hdirect (includesOf A epName) opts0 h
  have hc := hcollect (includesOf A epName) ⟨_, []⟩ hd.2
  exact hc.1.trans hd.1

end ArgSpecGen

namespace ArgSpecGen

open YVal

theorem lookupKey_append {α : Type} (a b : List (String × α)) (n : String) :
    lookupKey (a ++ b) n =
      (match lookupKey a n with
       | some v => some v
       | none => lookupKey b n) := by
  induction a with
  | nil => simp [lookupKey]
  | cons p rest ih =>
      by_cases hp : p.1 = n <;> simp [lookupKey, hp, ih]

theorem hasKey_append {α : Type} (a b : List (String × α)) (n : String) :
    hasKey (a ++ b) n = (hasKey a n || hasKey b n) := by
  unfold hasKey
  rw [lookupKey_append]
  cases lookupKey a n <;> simp

theorem argToDict_required_key (s : ArgumentSpec) :
    hasKey (argToDict s) "required" = s.required := by
  unfold argToDict
  simp only [hasKey_append]
  split_ifs <;> simp_all [hasKey, lookupKey]

theorem argToDict_no_default_key (s : ArgumentSpec) (h : s.default.isNull = true) :
    hasKey (argToDict s) "default" = false := by
  unfold argToDict
  simp only [hasKey_append, h]
  split_ifs <;> simp_all [hasKey, lookupKey]

/-- Claim C5: a variable discovered in the entry-point file itself and not
already added by the defaults or vars passes yields exactly the own-file
option, whose required flag is false iff the name is a defaults or vars
key; its serialized form never carries a default key and carries a required
key exactly when required is true. -/
theorem task_variable_required_rule (A : Analysis) (roleName epName : String)
    (ex : ExistingEntry) (n : String)
    (hmem : n ∈ entryFileVarsOf A epName)
    (hnot : hasKey (addVarsVariables A ex.options (addDefaultVariables A ex.options [])) n
      = false) :
    lookupKey (createEntryPointSpec epName roleName A ex).options n =
      some (ownFileSpec A ex.options epName n) ∧
    (ownFileSpec A ex.options epName n).required =
      !(hasKey A.defaults n || hasKey A.vars n) ∧
    hasKey (argToDict (ownFileSpec A ex.options epName n)) "default" = false ∧
    hasKey (argToDict (ownFileSpec A ex.options epName n)) "required" =
      (ownFileSpec A ex.options epName n).required := by
  refine ⟨?_, rfl, argToDict_no_default_key _ rfl, argToDict_required_key _⟩
  have h3 : lookupKey (addEntryPointVariables A ex.options epName
      (addVarsVariables A ex.options (addDefaultVariables A ex.options []))) n =
      some (ownFileSpec A ex.options epName n) := by
    rw [lookup_addEntryPointVariables]
    rw [if_neg (by rw [hnot]; exact Bool.false_ne_true), if_pos hmem]
  have h4 : hasKey (addEntryPointVariables A ex.options epName
      (addVarsVariables A ex.options (addDefaultVariables A ex.options []))) n = true := by
    unfold hasKey
    rw [h3]
    rfl
  show lookupKey (mergeIncludedVariables A ex.options epName
    (addEntryPointVariables A ex.options epName
      (addVarsVariables A ex.options (addDefaultVariables A ex.options [])))) n = _
  rw [mergeIncluded_preserves A ex.options epName _ n h4, h3]

/-- c5Analysis is a role whose main task file uses db_host, with no
defaults and no vars. -/
def c5Analysis : Analysis :=
  { taskFiles := ["main"], fileVariables := [("main", ["db_host"])] }

/-- Witness: db_host with no default anywhere comes out required with no
default key. -/
theorem task_variable_required_rule_witness :
    ("db_host" ∈ entryFileVarsOf c5Analysis "main") ∧
    hasKey (addVarsVariables c5Analysis [] (addDefaultVariables c5Analysis [] []))
      "db_host" = false ∧
    lookupKey (createEntryPointSpec "main" "r" c5Analysis {}).options "db_host" =
      some (ownFileSpec c5Analysis [] "main" "db_host") ∧
    (ownFileSpec c5Analysis [] "main" "db_host").required = true := by
  refine ⟨by decide, rfl, ?_, rfl⟩
  exact (task_variable_required_rule c5Analysis "r" "main" {} "db_host" (by decide) rfl).1

end ArgSpecGen

namespace ArgSpecGen

open YVal

/-- c2Analysis is a minimal role analysis: no defaults, no vars, no task
files beyond the implicit main entry point. -/
def c2Analysis : Analysis := { }

/-- c2Existing is an existing snapshot whose main entry stores a present
but empty short_description, the shape load_existing_specs produces from a
file with short_description written as an empty string. -/
def c2Existing : List (String × ExistingEntry) :=
  [("main", { short_description := some (ystr "") })]

/-- c2Probe checks whether the serialized tree carries a
short_description key under argument_specs.main. -/
def c2Probe (t : YVal) : Bool :=
  match t with
  | ydict kvs =>
      match lookupKey kvs "argument_specs" with
      | some (ydict es) =>
          match lookupKey es "main" with
          | some (ydict ed) => hasKey ed "short_description"
          | _ => false
      | _ => false
  | _ => false

/-- Claim C2 counterexample: one role state on which the round trip is not
idempotent.  The existing snapshot stores a present but falsy (empty)
short_description; the first run reuses it by key presence, so the
serializer drops the field by truthiness, and the second run, no longer
finding the key, synthesizes a nonempty short_description: the two runs
serialize different trees, hence different bytes. -/
theorem idempotence_counterexample :
    runRoleTree c2Analysis "r" (loadExistingSpecs (runRoleTree c2Analysis "r" c2Existing)) ≠
      runRoleTree c2Analysis "r" c2Existing := by
  intro h
  have h2 := congrArg c2Probe h
  rw [show c2Probe (runRoleTree c2Analysis "r"
        (loadExistingSpecs (runRoleTree c2Analysis "r" c2Existing))) = true from rfl,
      show c2Probe (runRoleTree c2Analysis "r" c2Existing) = false from rfl] at h2
  exact Bool.noConfusion h2

end ArgSpecGen

namespace ArgSpecGen

open YVal

/-- genericShape is the one option shape every addition pass of
_create_entry_point_spec produces: a fixed name, type, required flag,
default and elements, the stored description when truthy else a generated
one, and the version_added rule on the stored version and _existing flag. -/
def genericShape (nm T : String) (R : Bool) (D E G : YVal) (cur : String)
    (eo : ExistingOpt) : ArgumentSpec :=
  { name := nm, type := T, required := R, default := D,
    description := if eo.description.truthy then eo.description else G,
    elements := E,
    version_added :=
      if eo.version_added.truthy then eo.version_added
      else if eo.existing then ynull else ystr cur }

/-- roundtripOpt is what load_existing_specs reconstructs from one
serialized option: the stored description and version (absent keys become
null) with the _existing flag set. -/
def roundtripOpt (s : ArgumentSpec) : ExistingOpt :=
  parseExistingOpt (ydict (argToDict s))

/-- argToDict_lookup_description: the serialized option dict holds the
description key exactly when the description is truthy. -/
theorem argToDict_lookup_description (s : ArgumentSpec) :
    lookupKey (argToDict s) "description" =
      (if s.description.truthy then some s.description else none) := by
  unfold argToDict
  by_cases h : s.description.truthy <;>
    simp only [h, if_pos, if_neg, Bool.not_eq_true, ite_true, ite_false] <;>
    split_ifs <;> simp [lookupKey]

/-- argToDict_lookup_version: the serialized option dict holds the
version_added key exactly when the version is truthy. -/
theorem argToDict_lookup_version (s : ArgumentSpec) :
    lookupKey (argToDict s) "version_added" =
      (if s.version_added.truthy then some s.version_added else none) := by
  unfold argToDict
  by_cases h : s.version_added.truthy <;>
    simp only [h, ite_true, ite_false] <;>
    split_ifs <;> simp [lookupKey]

/-- desc_rt is the description fixed point: reloading the emitted
description and applying the reuse-or-generate rule again yields the same
description. -/
theorem desc_rt (x G : YVal) :
    (if ((if (if x.truthy then x else G).truthy
            then some (if x.truthy then x else G) else none).getD ynull).truthy
      then ((if (if x.truthy then x else G).truthy
            then some (if x.truthy then x else G) else none).getD ynull)
      else G) = (if x.truthy then x else G) := by
  by_cases h1 : (if x.truthy then x else G).truthy
  · simp [h1]
  · rw [if_neg h1]
    simp only [Option.getD_none]
    rw [if_neg (by simp [YVal.truthy])]
    by_cases h2 : x.truthy
    · rw [if_pos h2] at h1 ⊢
      exact absurd h2 h1
    · rw [if_neg h2]

/-- version_seg_rt is the version fixed point at the serialized-segment
level: a falsy version is not emitted, and on reload the _existing flag
suppresses any fresh stamp, so the emitted segment is unchanged. -/
theorem version_seg_rt (v1 : YVal) :
    (if (if ((if v1.truthy then some v1 else none).getD ynull).truthy
            then ((if v1.truthy then some v1 else none).getD ynull)
            else ynull).truthy
        then [("version_added",
          (if ((if v1.truthy then some v1 else none).getD ynull).truthy
            then ((if v1.truthy then some v1 else none).getD ynull)
            else ynull))] else []) =
      (if v1.truthy then [("version_added", v1)] else []) := by
  by_cases h : v1.truthy
  · simp [h]
  · have hb : v1.truthy = false := by rwa [Bool.not_eq_true] at h
    have h0 : YVal.truthy ynull = false := rfl
    simp [hb, h0]

/-- argToDict_congr: two option specs serialize identically when all
serialized fields agree (the version may differ as long as its emitted
segment agrees). -/
theorem argToDict_congr (s1 s2 : ArgumentSpec)
    (ht : s2.type = s1.type) (hr : s2.required = s1.required)
    (hd : s2.default = s1.default) (hc : s2.choices = s1.choices)
    (hdesc : s2.description = s1.description) (he : s2.elements = s1.elements)
    (ho : s2.options = s1.options)
    (hseg : (if s2.version_added.truthy
              then [("version_added", s2.version_added)] else []) =
            (if s1.version_added.truthy
              then [("version_added", s1.version_added)] else [])) :
    argToDict s2 = argToDict s1 := by
  unfold argToDict
  rw [ht, hr, hd, hc, hdesc, he, ho, hseg]

/-- genericShape_roundtrip: rebuilding an option of the generic shape from
its own serialized dict yields a byte-identical serialized dict. -/
theorem genericShape_roundtrip (nm T : String) (R : Bool) (D E G : YVal)
    (cur : String) (eo : ExistingOpt) :
    argToDict (genericShape nm T R D E G cur
      (roundtripOpt (genericShape nm T R D E G cur eo))) =
      argToDict (genericShape nm T R D E G cur eo) := by
  have hd := argToDict_lookup_description (genericShape nm T R D E G cur eo)
  have hv := argToDict_lookup_version (genericShape nm T R D E G cur eo)
  apply argToDict_congr
  · rfl
  · rfl
  · rfl
  · rfl
  · show (if ((lookupKey (argToDict (genericShape nm T R D E G cur eo))
        "description").getD ynull).truthy
      then ((lookupKey (argToDict (genericShape nm T R D E G cur eo))
        "description").getD ynull) else G) = _
    rw [hd]
    exact desc_rt eo.description G
  · rfl
  · rfl
  · show (if (if ((lookupKey (argToDict (genericShape nm T R D E G cur eo))
            "version_added").getD ynull).truthy
          then ((lookupKey (argToDict (genericShape nm T R D E G cur eo))
            "version_added").getD ynull)
          else ynull).truthy
        then [("version_added",
          (if ((lookupKey (argToDict (genericShape nm T R D E G cur eo))
            "version_added").getD ynull).truthy
          then ((lookupKey (argToDict (genericShape nm T R D E G cur eo))
            "version_added").getD ynull)
          else ynull))] else []) = _
    rw [hv]
    exact version_seg_rt _

end ArgSpecGen

namespace ArgSpecGen

open YVal

/-- guardedStep is one iteration of a presence-guarded addition pass:
skip when the name is already an option, else build and insert. -/
def guardedStep {I : Type} (name : I → String) (mk : I → ExistingOpt → ArgumentSpec)
    (exOpts : List (String × ExistingOpt)) (o : List (String × ArgumentSpec)) (i : I) :
    List (String × ArgumentSpec) :=
  if hasKey o (name i) then o
  else upsertKey o (name i) (mk i (getOpt exOpts (name i)))

/-- guardedFold runs a presence-guarded addition pass over a list of
items. -/
def guardedFold {I : Type} (name : I → String) (mk : I → ExistingOpt → ArgumentSpec)
    (exOpts : List (String × ExistingOpt)) (l : List I)
    (o : List (String × ArgumentSpec)) : List (String × ArgumentSpec) :=
  l.foldl (guardedStep name mk exOpts) o

/-- upsertStep is one iteration of the unguarded defaults pass: always
build and insert. -/
def upsertStep {I : Type} (name : I → String) (mk : I → ExistingOpt → ArgumentSpec)
    (exOpts : List (String × ExistingOpt)) (o : List (String × ArgumentSpec)) (i : I) :
    List (String × ArgumentSpec) :=
  upsertKey o (name i) (mk i (getOpt exOpts (name i)))

/-- upsertFold runs the unguarded defaults pass over a list of items. -/
def upsertFold {I : Type} (name : I → String) (mk : I → ExistingOpt → ArgumentSpec)
    (exOpts : List (String × ExistingOpt)) (l : List I)
    (o : List (String × ArgumentSpec)) : List (String × ArgumentSpec) :=
  l.foldl (upsertStep name mk exOpts) o

theorem guardedFold_cons {I : Type} (name : I → String) (mk : I → ExistingOpt → ArgumentSpec)
    (ex : List (String × ExistingOpt)) (i : I) (l : List I)
    (o : List (String × ArgumentSpec)) :
    guardedFold name mk ex (i :: l) o = guardedFold name mk ex l (guardedStep name mk ex o i) := rfl

theorem guardedFold_append {I : Type} (name : I → String) (mk : I → ExistingOpt → ArgumentSpec)
    (ex : List (String × ExistingOpt)) (l1 l2 : List I)
    (o : List (String × ArgumentSpec)) :
    guardedFold name mk ex (l1 ++ l2) o = guardedFold name mk ex l2 (guardedFold name mk ex l1 o) := by
  unfold guardedFold
  apply List.foldl_append

theorem guardedFold_preserves {I : Type} (name : I → String)
    (mk : I → ExistingOpt → ArgumentSpec) (ex : List (String × ExistingOpt)) :
    ∀ (l : List I) (st : List (String × ArgumentSpec)) (n : String),
      hasKey st n = true →
      lookupKey (guardedFold name mk ex l st) n = lookupKey st n ∧
        hasKey (guardedFold name mk ex l st) n = true := by
  intro l
  induction l with
  | nil => intro st n h; exact ⟨rfl, h⟩
  | cons i l ih =>
      intro st n h
      rw [guardedFold_cons]
      by_cases hg : hasKey st (name i) = true
      · have e : guardedStep name mk ex st i = st := by simp [guardedStep, hg]
        rw [e]
        exact ih st n h
      · have hg0 : hasKey st (name i) = false := by rwa [Bool.not_eq_true] at hg
        have e : guardedStep name mk ex st i =
            upsertKey st (name i) (mk i (getOpt ex (name i))) := by
          simp [guardedStep, hg0]
        have hne : n ≠ name i := by
          intro hh
          rw [hh] at h
          rw [h] at hg0
          cases hg0
        rw [e]
        have h2 : hasKey (upsertKey st (name i) (mk i (getOpt ex (name i)))) n = true := by
          rw [hasKey_upsert]
          simp [h]
        rcases ih (upsertKey st (name i) (mk i (getOpt ex (name i)))) n h2 with ⟨ha, hb⟩
        exact ⟨ha.trans (lookupKey_upsert_other _ _ _ _ hne), hb⟩

theorem upsertFold_preserves_notmem {I : Type} (name : I → String)
    (mk : I → ExistingOpt → ArgumentSpec) (ex : List (String × ExistingOpt)) :
    ∀ (l : List I) (st : List (String × ArgumentSpec)) (n : String),
      n ∉ l.map name →
      lookupKey (upsertFold name mk ex l st) n = lookupKey st n := by
  intro l
  induction l with
  | nil => intro st n _; rfl
  | cons i l ih =>
      intro st n hmem
      simp only [List.map_cons, List.mem_cons, not_or] at hmem
      have : upsertFold name mk ex (i :: l) st =
          upsertFold name mk ex l (upsertKey st (name i) (mk i (getOpt ex (name i)))) := rfl
      rw [this, ih _ n hmem.2, lookupKey_upsert_other _ _ _ _ hmem.1]

/-- optsDict serializes an options mapping pointwise, the view of the
options that reaches the output tree. -/
def optsDict (o : List (String × ArgumentSpec)) : List (String × YVal) :=
  o.map (fun p => (p.1, ydict (argToDict p.2)))

theorem optsDict_keys (o : List (String × ArgumentSpec)) :
    (optsDict o).map Prod.fst = o.map Prod.fst := by
  unfold optsDict
  rw [List.map_map]
  rfl

theorem hasKey_eq_contains_keys {α : Type} (l : List (String × α)) (n : String) :
    hasKey l n = (l.map Prod.fst).contains n := by
  induction l with
  | nil => rfl
  | cons p rest ih =>
      by_cases h : p.1 = n
      · simp [hasKey, lookupKey, h, List.contains_cons]
      · have h2 : (n == p.1) = false :=
          beq_eq_false_iff_ne.mpr (fun hh => h hh.symm)
        simp only [hasKey, lookupKey, if_neg h, List.map_cons, List.contains_cons]
        rw [← hasKey, ih, h2, Bool.false_or]

theorem hasKey_congr_keys {α β : Type} (o2 : List (String × α)) (o1 : List (String × β))
    (h : o2.map Prod.fst = o1.map Prod.fst) (n : String) : hasKey o2 n = hasKey o1 n := by
  rw [hasKey_eq_contains_keys, hasKey_eq_contains_keys, h]

theorem optsDict_upsert (o : List (String × ArgumentSpec)) (k : String) (s : ArgumentSpec) :
    optsDict (upsertKey o k s) = upsertKey (optsDict o) k (ydict (argToDict s)) := by
  induction o with
  | nil => rfl
  | cons p rest ih =>
      by_cases h : p.1 = k
      · simp [optsDict, upsertKey, h]
      · simp only [optsDict, upsertKey, if_neg h, List.map_cons]
        rw [← optsDict, ← optsDict, ih]

/-- guardedFold_parallel: a guarded pass run against the reloaded snapshot
of its own final output serializes identically to the pass run against the
original snapshot. -/
theorem guardedFold_parallel {I : Type} (name : I → String)
    (mk : I → ExistingOpt → ArgumentSpec)
    (ex1 ex2 : List (String × ExistingOpt)) (final1 : List (String × ArgumentSpec))
    (hmkrt : ∀ (i : I) (eo : ExistingOpt),
      argToDict (mk i (roundtripOpt (mk i eo))) = argToDict (mk i eo))
    (HEX : ∀ n s, lookupKey final1 n = some s → getOpt ex2 n = roundtripOpt s) :
    ∀ (l : List I) (st1 st2 : List (String × ArgumentSpec)),
      optsDict st2 = optsDict st1 →
      (∀ n s, lookupKey (guardedFold name mk ex1 l st1) n = some s →
        lookupKey final1 n = some s) →
      optsDict (guardedFold name mk ex2 l st2) = optsDict (guardedFold name mk ex1 l st1) := by
  intro l
  induction l with
  | nil => intro st1 st2 hopts _; exact hopts
  | cons i l ih =>
      intro st1 st2 hopts hfut
      have hkeys : st2.map Prod.fst = st1.map Prod.fst := by
        rw [← optsDict_keys st2, ← optsDict_keys st1, hopts]
      have hguard : hasKey st2 (name i) = hasKey st1 (name i) :=
        hasKey_congr_keys _ _ hkeys _
      by_cases hk : hasKey st1 (name i) = true
      · have e1 : guardedStep name mk ex1 st1 i = st1 := by simp [guardedStep, hk]
        have e2 : guardedStep name mk ex2 st2 i = st2 := by
          simp [guardedStep, hguard, hk]
        rw [guardedFold_cons, guardedFold_cons, e1, e2]
        exact ih st1 st2 hopts (by
          intro n s h
          apply hfut
          rwa [guardedFold_cons, e1])
      · have hk1 : hasKey st1 (name i) = false := by rwa [Bool.not_eq_true] at hk
        have hk2 : hasKey st2 (name i) = false := by rw [hguard]; exact hk1
        have e1 : guardedStep name mk ex1 st1 i =
            upsertKey st1 (name i) (mk i (getOpt ex1 (name i))) := by
          simp [guardedStep, hk1]
        have e2 : guardedStep name mk ex2 st2 i =
            upsertKey st2 (name i) (mk i (getOpt ex2 (name i))) := by
          simp [guardedStep, hk2]
        have hsur : lookupKey (guardedFold name mk ex1 (i :: l) st1) (name i) =
            some (mk i (getOpt ex1 (name i))) := by
          rw [guardedFold_cons, e1]
          have hp := (guardedFold_preserves name mk ex1 l
            (upsertKey st1 (name i) (mk i (getOpt ex1 (name i)))) (name i)
            (by rw [hasKey_upsert]; simp)).1
          rw [hp, lookupKey_upsert_self]
        have hex2 : getOpt ex2 (name i) = roundtripOpt (mk i (getOpt ex1 (name i))) :=
          HEX _ _ (hfut _ _ hsur)
        have hADeq : argToDict (mk i (getOpt ex2 (name i))) =
            argToDict (mk i (getOpt ex1 (name i))) := by
          rw [hex2]
          exact hmkrt i (getOpt ex1 (name i))
        have hopts2 : optsDict (upsertKey st2 (name i) (mk i (getOpt ex2 (name i)))) =
            optsDict (upsertKey st1 (name i) (mk i (getOpt ex1 (name i)))) := by
          rw [optsDict_upsert, optsDict_upsert, hopts, hADeq]
        rw [guardedFold_cons, guardedFold_cons, e1, e2]
        exact ih _ _ hopts2 (by
          intro n s h
          apply hfut
          rwa [guardedFold_cons, e1])

/-- upsertFold_parallel: the unguarded defaults pass, over duplicate-free
names, run against the reloaded snapshot of its own final output
serializes identically to the pass run against the original snapshot. -/
theorem upsertFold_parallel {I : Type} (name : I → String)
    (mk : I → ExistingOpt → ArgumentSpec)
    (ex1 ex2 : List (String × ExistingOpt)) (final1 : List (String × ArgumentSpec))
    (hmkrt : ∀ (i : I) (eo : ExistingOpt),
      argToDict (mk i (roundtripOpt (mk i eo))) = argToDict (mk i eo))
    (HEX : ∀ n s, lookupKey final1 n = some s → getOpt ex2 n = roundtripOpt s) :
    ∀ (l : List I) (st1 st2 : List (String × ArgumentSpec)),
      (l.map name).Nodup →
      optsDict st2 = optsDict st1 →
      (∀ n s, lookupKey (upsertFold name mk ex1 l st1) n = some s →
        lookupKey final1 n = some s) →
      optsDict (upsertFold name mk ex2 l st2) = optsDict (upsertFold name mk ex1 l st1) := by
  intro l
  induction l with
  | nil => intro st1 st2 _ hopts _; exact hopts
  | cons i l ih =>
      intro st1 st2 hnd hopts hfut
      simp only [List.map_cons, List.nodup_cons] at hnd
      have e1 : upsertFold name mk ex1 (i :: l) st1 =
          upsertFold name mk ex1 l (upsertKey st1 (name i) (mk i (getOpt ex1 (name i)))) := rfl
      have e2 : upsertFold name mk ex2 (i :: l) st2 =
          upsertFold name mk ex2 l (upsertKey st2 (name i) (mk i (getOpt ex2 (name i)))) := rfl
      have hsur : lookupKey (upsertFold name mk ex1 (i :: l) st1) (name i) =
          some (mk i (getOpt ex1 (name i))) := by
        rw [e1, upsertFold_preserves_notmem name mk ex1 l _ _ hnd.1, lookupKey_upsert_self]
      have hex2 : getOpt ex2 (name i) = roundtripOpt (mk i (getOpt ex1 (name i))) :=
        HEX _ _ (hfut _ _ hsur)
      have hADeq : argToDict (mk i (getOpt ex2 (name i))) =
          argToDict (mk i (getOpt ex1 (name i))) := by
        rw [hex2]
        exact hmkrt i (getOpt ex1 (name i))
      have hopts2 : optsDict (upsertKey st2 (name i) (mk i (getOpt ex2 (name i)))) =
          optsDict (upsertKey st1 (name i) (mk i (getOpt ex1 (name i)))) := by
        rw [optsDict_upsert, optsDict_upsert, hopts, hADeq]
      rw [e1, e2]
      exact ih _ _ hnd.2 hopts2 (by
        intro n s h
        apply hfut
        rwa [e1])

end ArgSpecGen

namespace ArgSpecGen

open YVal

/-- elemsOf is the elements field rule of _infer_argument_spec. -/
def elemsOf : YVal → YVal
  | ylist xs => ystr (inferListElementType xs)
  | _ => ynull

/-- mk1 builds one option of the defaults pass. -/
def mk1 (A : Analysis) (p : String × YVal) (eo : ExistingOpt) : ArgumentSpec :=
  inferArgumentSpec A.variableCtx p.1 p.2 eo.description eo.version_added eo.existing A.version

/-- mk2 builds one option of the vars pass, with the defined-in-vars
suffix when no existing description was reused. -/
def mk2 (A : Analysis) (p : String × YVal) (eo : ExistingOpt) : ArgumentSpec :=
  let s := inferArgumentSpec A.variableCtx p.1 p.2 eo.description eo.version_added
    eo.existing A.version
  if eo.description.truthy then s
  else { s with description := ystr (yvalToStr s.description ++ " (defined in vars)") }

/-- mk3 builds one option of the entry-point-file pass. -/
def mk3 (A : Analysis) (epName : String) (n : String) (eo : ExistingOpt) : ArgumentSpec :=
  genericShape n "str" (!(hasKey A.defaults n || hasKey A.vars n)) ynull ynull
    (ystr ("Variable used in " ++ epName ++ " entry point")) A.version eo

/-- mk4 builds one option of the included-files pass, labeled with the
file the variable was found in. -/
def mk4 (A : Analysis) (p : String × String) (eo : ExistingOpt) : ArgumentSpec :=
  genericShape p.2 "str" (!(hasKey A.defaults p.2 || hasKey A.vars p.2)) ynull ynull
    (ystr ("Variable used in included task file: " ++ p.1 ++ ".yml")) A.version eo

theorem mk1_shape (A : Analysis) (p : String × YVal) (eo : ExistingOpt) :
    mk1 A p eo = genericShape p.1 (inferTypeOf p.1 p.2) false p.2 (elemsOf p.2)
      (ystr (generateSmartDescription A.variableCtx p.1 p.2 (inferTypeOf p.1 p.2)))
      A.version eo := rfl

theorem mk2_shape (A : Analysis) (p : String × YVal) (eo : ExistingOpt) :
    mk2 A p eo = genericShape p.1 (inferTypeOf p.1 p.2) false p.2 (elemsOf p.2)
      (ystr (generateSmartDescription A.variableCtx p.1 p.2 (inferTypeOf p.1 p.2) ++
        " (defined in vars)"))
      A.version eo := by
  by_cases h : eo.description.truthy
  · simp only [mk2, inferArgumentSpec, genericShape, h, if_true, ite_true]
    cases hp : p.2 <;> simp [elemsOf]
  · have hb : eo.description.truthy = false := by rwa [Bool.not_eq_true] at h
    simp only [mk2, inferArgumentSpec, genericShape, hb, Bool.false_eq_true, if_false,
      ite_false, yvalToStr]
    cases hp : p.2 <;> simp [elemsOf, yvalToStr]

theorem mk1_rt (A : Analysis) (p : String × YVal) (eo : ExistingOpt) :
    argToDict (mk1 A p (roundtripOpt (mk1 A p eo))) = argToDict (mk1 A p eo) := by
  simp only [mk1_shape]
  exact genericShape_roundtrip _ _ _ _ _ _ _ _

theorem mk2_rt (A : Analysis) (p : String × YVal) (eo : ExistingOpt) :
    argToDict (mk2 A p (roundtripOpt (mk2 A p eo))) = argToDict (mk2 A p eo) := by
  simp only [mk2_shape]
  exact genericShape_roundtrip _ _ _ _ _ _ _ _

theorem mk3_rt (A : Analysis) (epName n : String) (eo : ExistingOpt) :
    argToDict (mk3 A epName n (roundtripOpt (mk3 A epName n eo))) =
      argToDict (mk3 A epName n eo) := by
  simp only [mk3]
  exact genericShape_roundtrip _ _ _ _ _ _ _ _

theorem mk4_rt (A : Analysis) (p : String × String) (eo : ExistingOpt) :
    argToDict (mk4 A p (roundtripOpt (mk4 A p eo))) = argToDict (mk4 A p eo) := by
  simp only [mk4]
  exact genericShape_roundtrip _ _ _ _ _ _ _ _

theorem addDefaults_bridge (A : Analysis) (ex : List (String × ExistingOpt))
    (o : List (String × ArgumentSpec)) :
    addDefaultVariables A ex o = upsertFold Prod.fst (mk1 A) ex A.defaults o := rfl

theorem addVars_bridge (A : Analysis) (ex : List (String × ExistingOpt))
    (o : List (String × ArgumentSpec)) :
    addVarsVariables A ex o = guardedFold Prod.fst (mk2 A) ex A.vars o := rfl

theorem addEntryPoint_bridge (A : Analysis) (ex : List (String × ExistingOpt))
    (epName : String) (o : List (String × ArgumentSpec)) :
    addEntryPointVariables A ex epName o =
      guardedFold (fun n => n) (mk3 A epName) ex (entryFileVarsOf A epName) o := rfl

theorem addIncludedVar_bridge (A : Analysis) (ex : List (String × ExistingOpt))
    (f : String) (o : List (String × ArgumentSpec)) (n : String) :
    addIncludedVar A ex f o n = guardedStep Prod.snd (mk4 A) ex o (f, n) := rfl

end ArgSpecGen

namespace ArgSpecGen

open YVal

/-- collectPairs lists the (file, variable) pairs the recursive collector
visits from one file, in processing order, together with the final visited
set; it depends only on the analysis, never on the options state. -/
def collectPairs (A : Analysis) : Nat → String → List String →
    List (String × String) × List String
  | 0, _, vis => ([], vis)
  | fuel + 1, f, vis =>
      if vis.contains f then ([], vis)
      else
        let own : List (String × String) :=
          match lookupKey A.fileVariables f with
          | some vars => vars.map (fun n => (f, n))
          | none => []
        (includesOf A f).foldl
          (fun acc sub =>
            let r := collectPairs A fuel sub acc.2
            (acc.1 ++ r.1, r.2))
          (own, f :: vis)

/-- pairsOfList chains collectPairs over a list of start files with a
shared visited set. -/
def pairsOfList (A : Analysis) (fuel : Nat) (L : List String) (vis : List String) :
    List (String × String) × List String :=
  L.foldl
    (fun acc sub =>
      let r := collectPairs A fuel sub acc.2
      (acc.1 ++ r.1, r.2))
    ([], vis)

theorem pairs_fold_shift (A : Analysis) (fuel : Nat) :
    ∀ (L : List String) (xs : List (String × String)) (vis : List String),
      L.foldl
        (fun acc sub =>
          let r := collectPairs A fuel sub acc.2
          (acc.1 ++ r.1, r.2))
        (xs, vis) =
      (xs ++ (pairsOfList A fuel L vis).1, (pairsOfList A fuel L vis).2) := by
  intro L
  induction L with
  | nil => intro xs vis; simp [pairsOfList]
  | cons sub L ih =>
      intro xs vis
      show L.foldl _ (xs ++ (collectPairs A fuel sub vis).1, (collectPairs A fuel sub vis).2) = _
      rw [ih]
      have hR : pairsOfList A fuel (sub :: L) vis =
          ((collectPairs A fuel sub vis).1 ++
            (pairsOfList A fuel L (collectPairs A fuel sub vis).2).1,
           (pairsOfList A fuel L (collectPairs A fuel sub vis).2).2) := by
        show L.foldl _ ([] ++ (collectPairs A fuel sub vis).1, (collectPairs A fuel sub vis).2) = _
        rw [List.nil_append, ih]
      rw [hR, List.append_assoc]

theorem collectAux_pairs (A : Analysis) (ex : List (String × ExistingOpt)) :
    ∀ (fuel : Nat) (f : String) (st : MergeSt),
      collectAux A ex fuel f st =
        { options := guardedFold Prod.snd (mk4 A) ex
            (collectPairs A fuel f st.visited).1 st.options,
          visited := (collectPairs A fuel f st.visited).2 } := by
  intro fuel
  induction fuel with
  | zero => intro f st; rfl
  | succ fuel ih =>
      intro f st
      simp only [collectAux, collectPairs]
      split_ifs with hv
      · rfl
      · have hfold : ∀ (L : List String) (st0 : MergeSt),
            L.foldl (fun s sub => collectAux A ex fuel sub s) st0 =
              { options := guardedFold Prod.snd (mk4 A) ex
                  (pairsOfList A fuel L st0.visited).1 st0.options,
                visited := (pairsOfList A fuel L st0.visited).2 } := by
          intro L
          induction L with
          | nil => intro st0; simp [pairsOfList, guardedFold]
          | cons sub L ihL =>
              intro st0
              show L.foldl _ (collectAux A ex fuel sub st0) = _
              rw [ih sub st0, ihL]
              have hR : pairsOfList A fuel (sub :: L) st0.visited =
                  ((collectPairs A fuel sub st0.visited).1 ++
                    (pairsOfList A fuel L (collectPairs A fuel sub st0.visited).2).1,
                   (pairsOfList A fuel L (collectPairs A fuel sub st0.visited).2).2) := by
                show L.foldl _ ([] ++ (collectPairs A fuel sub st0.visited).1,
                  (collectPairs A fuel sub st0.visited).2) = _
                rw [List.nil_append, pairs_fold_shift]
              rw [hR]
              simp only [guardedFold_append]
        rw [hfold]
        cases hlv : lookupKey A.fileVariables f with
        | none =>
            simp only [hlv]
            rw [pairs_fold_shift]
            simp [guardedFold_append, guardedFold]
        | some vars =>
            simp only [hlv]
            rw [pairs_fold_shift]
            simp only [guardedFold_append]
            have hown : vars.foldl (addIncludedVar A ex f) st.options =
                guardedFold Prod.snd (mk4 A) ex (vars.map (fun n => (f, n))) st.options := by
              unfold guardedFold
              rw [List.foldl_map]
              rfl
            rw [hown]

end ArgSpecGen

namespace ArgSpecGen

open YVal

/-- filePairs lists the (file, variable) pairs one file contributes to the
direct loop of _merge_included_variables. -/
def filePairs (A : Analysis) (f : String) : List (String × String) :=
  match lookupKey A.fileVariables f with
  | some vars => vars.map (fun n => (f, n))
  | none => []

/-- directPairs lists the (file, variable) pairs of the direct loop of
_merge_included_variables. -/
def directPairs (A : Analysis) (ep : String) : List (String × String) :=
  (includesOf A ep).flatMap (filePairs A)

/-- includedPairs lists every (file, variable) pair _merge_included_variables
processes for one entry point, direct loop first, then the recursive
collection, a function of the analysis alone. -/
def includedPairs (A : Analysis) (ep : String) : List (String × String) :=
  directPairs A ep ++ (pairsOfList A (collectFuel A ep) (includesOf A ep) []).1

theorem direct_loop_bridge (A : Analysis) (ex : List (String × ExistingOpt)) :
    ∀ (L : List String) (o : List (String × ArgumentSpec)),
      L.foldl
        (fun o f =>
          match lookupKey A.fileVariables f with
          | some vars => vars.foldl (addIncludedVar A ex f) o
          | none => o)
        o =
      guardedFold Prod.snd (mk4 A) ex (L.flatMap (filePairs A)) o := by
  intro L
  induction L with
  | nil => intro o; rfl
  | cons f L ih =>
      intro o
      rw [List.flatMap_cons, guardedFold_append]
      show L.foldl _
        (match lookupKey A.fileVariables f with
         | some vars => vars.foldl (addIncludedVar A ex f) o
         | none => o) = _
      rw [ih]
      cases hlv : lookupKey A.fileVariables f with
      | none => simp [filePairs, hlv, guardedFold]
      | some vars =>
          simp only [filePairs, hlv]
          have hown : vars.foldl (addIncludedVar A ex f) o =
              guardedFold Prod.snd (mk4 A) ex (vars.map (fun n => (f, n))) o := by
            unfold guardedFold
            rw [List.foldl_map]
            rfl
          rw [hown]

theorem mergeIncluded_bridge (A : Analysis) (ex : List (String × ExistingOpt))
    (ep : String) (o0 : List (String × ArgumentSpec)) :
    mergeIncludedVariables A ex ep o0 =
      guardedFold Prod.snd (mk4 A) ex (includedPairs A ep) o0 := by
  unfold mergeIncludedVariables mergeIncludedSt mergeIncludedStFuel
  simp only []
  have hfold : ∀ (L : List String) (st0 : MergeSt),
      L.foldl (fun st f => collectAux A ex (collectFuel A ep) f st) st0 =
        { options := guardedFold Prod.snd (mk4 A) ex
            (pairsOfList A (collectFuel A ep) L st0.visited).1 st0.options,
          visited := (pairsOfList A (collectFuel A ep) L st0.visited).2 } := by
    intro L
    induction L with
    | nil => intro st0; simp [pairsOfList, guardedFold]
    | cons sub L ihL =>
        intro st0
        show L.foldl _ (collectAux A ex (collectFuel A ep) sub st0) = _
        rw [collectAux_pairs A ex (collectFuel A ep) sub st0, ihL]
        have hR : pairsOfList A (collectFuel A ep) (sub :: L) st0.visited =
            ((collectPairs A (collectFuel A ep) sub st0.visited).1 ++
              (pairsOfList A (collectFuel A ep) L
                (collectPairs A (collectFuel A ep) sub st0.visited).2).1,
             (pairsOfList A (collectFuel A ep) L
               (collectPairs A (collectFuel A ep) sub st0.visited).2).2) := by
          show L.foldl _ ([] ++ (collectPairs A (collectFuel A ep) sub st0.visited).1,
            (collectPairs A (collectFuel A ep) sub st0.visited).2) = _
          rw [List.nil_append, pairs_fold_shift]
        rw [hR]
        simp only [guardedFold_append]
  rw [hfold]
  simp only []
  rw [direct_loop_bridge]
  unfold includedPairs directPairs
  rw [guardedFold_append]

/-- epOptions is the options mapping of one entry point: the four
addition passes of _create_entry_point_spec in source order. -/
def epOptions (A : Analysis) (ep : String) (ex : List (String × ExistingOpt)) :
    List (String × ArgumentSpec) :=
  mergeIncludedVariables A ex ep
    (addEntryPointVariables A ex ep
      (addVarsVariables A ex
        (addDefaultVariables A ex [])))

theorem createEntryPointSpec_options (epName roleName : String) (A : Analysis)
    (ex : ExistingEntry) :
    (createEntryPointSpec epName roleName A ex).options = epOptions A epName ex.options := rfl

theorem epOptions_parallel (A : Analysis) (ep : String)
    (ex1 ex2 : List (String × ExistingOpt))
    (hd : (A.defaults.map Prod.fst).Nodup)
    (HEX : ∀ n s, lookupKey (epOptions A ep ex1) n = some s →
      getOpt ex2 n = roundtripOpt s) :
    optsDict (epOptions A ep ex2) = optsDict (epOptions A ep ex1) := by
  unfold epOptions at HEX ⊢
  simp only [addDefaults_bridge, addVars_bridge, addEntryPoint_bridge,
    mergeIncluded_bridge] at HEX ⊢
  apply guardedFold_parallel Prod.snd (mk4 A) ex1 ex2 _ (mk4_rt A) HEX
  · apply guardedFold_parallel (fun n => n) (mk3 A ep) ex1 ex2 _ (mk3_rt A ep) HEX
    · apply guardedFold_parallel Prod.fst (mk2 A) ex1 ex2 _ (mk2_rt A) HEX
      · apply upsertFold_parallel Prod.fst (mk1 A) ex1 ex2 _ (mk1_rt A) HEX _ _ _ hd rfl
        intro n s h
        have h1 : hasKey (upsertFold Prod.fst (mk1 A) ex1 A.defaults []) n = true := by
          unfold hasKey
          rw [h]
          rfl
        have h2 := guardedFold_preserves Prod.fst (mk2 A) ex1 A.vars _ n h1
        have h3 := guardedFold_preserves (fun n => n) (mk3 A ep) ex1
          (entryFileVarsOf A ep) _ n h2.2
        have h4 := guardedFold_preserves Prod.snd (mk4 A) ex1 (includedPairs A ep) _ n h3.2
        rw [h4.1, h3.1, h2.1]
        exact h
      · intro n s h
        have h1 : hasKey (guardedFold Prod.fst (mk2 A) ex1 A.vars
            (upsertFold Prod.fst (mk1 A) ex1 A.defaults [])) n = true := by
          unfold hasKey
          rw [h]
          rfl
        have h3 := guardedFold_preserves (fun n => n) (mk3 A ep) ex1
          (entryFileVarsOf A ep) _ n h1
        have h4 := guardedFold_preserves Prod.snd (mk4 A) ex1 (includedPairs A ep) _ n h3.2
        rw [h4.1, h3.1]
        exact h
    · intro n s h
      have h1 : hasKey (guardedFold (fun n => n) (mk3 A ep) ex1 (entryFileVarsOf A ep)
          (guardedFold Prod.fst (mk2 A) ex1 A.vars
            (upsertFold Prod.fst (mk1 A) ex1 A.defaults []))) n = true := by
        unfold hasKey
        rw [h]
        rfl
      have h4 := guardedFold_preserves Prod.snd (mk4 A) ex1 (includedPairs A ep) _ n h1
      rw [h4.1]
      exact h
  · exact fun n s h => h

end ArgSpecGen

namespace ArgSpecGen

open YVal

theorem mem_keys_upsert {α : Type} (l : List (String × α)) (k : String) (v : α) (m : String) :
    m ∈ (upsertKey l k v).map Prod.fst ↔ m ∈ l.map Prod.fst ∨ m = k := by
  induction l with
  | nil => simp [upsertKey]
  | cons p rest ih =>
      by_cases h : p.1 = k
      · simp only [upsertKey, if_pos h, List.map_cons, List.mem_cons]
        rw [h]
        constructor
        · intro hh
          rcases hh with h1 | h2
          · exact Or.inr h1
          · exact Or.inl (Or.inr h2)
        · intro hh
          rcases hh with (h1 | h2) | h3
          · exact Or.inl (h ▸ h1)
          · exact Or.inr h2
          · exact Or.inl h3
      · simp only [upsertKey, if_neg h, List.map_cons, List.mem_cons, ih]
        tauto

theorem nodup_keys_upsert {α : Type} (l : List (String × α)) (k : String) (v : α)
    (h : (l.map Prod.fst).Nodup) : ((upsertKey l k v).map Prod.fst).Nodup := by
  induction l with
  | nil => simp [upsertKey]
  | cons p rest ih =>
      simp only [List.map_cons, List.nodup_cons] at h
      by_cases hp : p.1 = k
      · simp only [upsertKey, if_pos hp, List.map_cons, List.nodup_cons]
        exact ⟨hp ▸ h.1, h.2⟩
      · simp only [upsertKey, if_neg hp, List.map_cons, List.nodup_cons]
        refine ⟨fun hmem => ?_, ih h.2⟩
        rcases (mem_keys_upsert rest k v p.1).mp hmem with h1 | h2
        · exact h.1 h1
        · exact hp h2

theorem guardedFold_keys_nodup {I : Type} (name : I → String)
    (mk : I → ExistingOpt → ArgumentSpec) (ex : List (String × ExistingOpt)) :
    ∀ (l : List I) (st : List (String × ArgumentSpec)),
      (st.map Prod.fst).Nodup → ((guardedFold name mk ex l st).map Prod.fst).Nodup := by
  intro l
  induction l with
  | nil => intro st h; exact h
  | cons i l ih =>
      intro st h
      rw [guardedFold_cons]
      apply ih
      unfold guardedStep
      split_ifs
      · exact h
      · exact nodup_keys_upsert _ _ _ h

theorem upsertFold_keys_nodup {I : Type} (name : I → String)
    (mk : I → ExistingOpt → ArgumentSpec) (ex : List (String × ExistingOpt)) :
    ∀ (l : List I) (st : List (String × ArgumentSpec)),
      (st.map Prod.fst).Nodup → ((upsertFold name mk ex l st).map Prod.fst).Nodup := by
  intro l
  induction l with
  | nil => intro st h; exact h
  | cons i l ih =>
      intro st h
      exact ih _ (nodup_keys_upsert _ _ _ h)

theorem epOptions_keys_nodup (A : Analysis) (ep : String)
    (ex : List (String × ExistingOpt)) :
    ((epOptions A ep ex).map Prod.fst).Nodup := by
  unfold epOptions
  rw [addDefaults_bridge, addVars_bridge, addEntryPoint_bridge, mergeIncluded_bridge]
  apply guardedFold_keys_nodup
  apply guardedFold_keys_nodup
  apply guardedFold_keys_nodup
  apply upsertFold_keys_nodup
  simp

theorem insortKey_perm {α : Type} (p : String × α) (l : List (String × α)) :
    List.Perm (insortKey p l) (p :: l) := by
  induction l with
  | nil => exact List.Perm.refl _
  | cons q rest ih =>
      unfold insortKey
      split_ifs
      · exact List.Perm.refl _
      · exact List.Perm.trans (List.Perm.cons q ih) (List.Perm.swap p q rest)

theorem sortByKey_perm {α : Type} (l : List (String × α)) :
    List.Perm (sortByKey l) l := by
  induction l with
  | nil => exact List.Perm.refl _
  | cons p rest ih =>
      have h : sortByKey (p :: rest) = insortKey p (sortByKey rest) := rfl
      rw [h]
      exact List.Perm.trans (insortKey_perm p (sortByKey rest)) (List.Perm.cons p ih)

theorem lookup_eq_some_of_mem_nodup {α : Type} (l : List (String × α)) (n : String) (v : α)
    (hmem : (n, v) ∈ l) (hnd : (l.map Prod.fst).Nodup) : lookupKey l n = some v := by
  induction l with
  | nil => cases hmem
  | cons p rest ih =>
      simp only [List.map_cons, List.nodup_cons] at hnd
      rcases List.mem_cons.mp hmem with h1 | h2
      · rw [← h1]
        simp [lookupKey]
      · have hne : p.1 ≠ n := by
          intro hh
          apply hnd.1
          rw [hh]
          exact List.mem_map.mpr ⟨(n, v), h2, rfl⟩
        simp only [lookupKey, if_neg hne]
        exact ih h2 hnd.2

theorem lookupKey_perm {α : Type} (l1 l2 : List (String × α))
    (hp : List.Perm l1 l2) (hnd : (l1.map Prod.fst).Nodup) (n : String) :
    lookupKey l1 n = lookupKey l2 n := by
  cases hc : lookupKey l1 n with
  | some v =>
      have hmem : (n, v) ∈ l2 := hp.mem_iff.mp (mem_of_lookup_some l1 n v hc)
      have hnd2 : (l2.map Prod.fst).Nodup := (hp.map Prod.fst).nodup_iff.mp hnd
      exact (lookup_eq_some_of_mem_nodup l2 n v hmem hnd2).symm
  | none =>
      have hmem : n ∉ l1.map Prod.fst := (lookupKey_eq_none_iff l1 n).mp hc
      have hmem2 : n ∉ l2.map Prod.fst := fun hh => hmem ((hp.map Prod.fst).mem_iff.mpr hh)
      exact ((lookupKey_eq_none_iff l2 n).mpr hmem2).symm

theorem lookup_map_values {α β : Type} (g : α → β) (l : List (String × α)) (n : String) :
    lookupKey (l.map (fun p => (p.1, g p.2))) n = (lookupKey l n).map g := by
  induction l with
  | nil => rfl
  | cons p rest ih =>
      by_cases h : p.1 = n
      · simp [lookupKey, h]
      · simp only [List.map_cons, lookupKey, if_neg h, ih]

theorem map_insortKey {α β : Type} (g : α → β) (p : String × α) (l : List (String × α)) :
    (insortKey p l).map (fun q => (q.1, g q.2)) =
      insortKey (p.1, g p.2) (l.map (fun q => (q.1, g q.2))) := by
  induction l with
  | nil => rfl
  | cons q rest ih =>
      unfold insortKey
      split_ifs with h
      · simp [List.map_cons, insortKey, h]
      · simp only [List.map_cons, insortKey, h, Bool.false_eq_true, if_false, ite_false]
        rw [ih]

theorem map_sortByKey {α β : Type} (g : α → β) (l : List (String × α)) :
    (sortByKey l).map (fun q => (q.1, g q.2)) = sortByKey (l.map (fun q => (q.1, g q.2))) := by
  induction l with
  | nil => rfl
  | cons p rest ih =>
      show (insortKey p (sortByKey rest)).map (fun q => (q.1, g q.2)) =
        insortKey (p.1, g p.2) (sortByKey (rest.map (fun q => (q.1, g q.2))))
      rw [map_insortKey, ih]

end ArgSpecGen

namespace ArgSpecGen

open YVal

theorem epToDict_lookup_short (ep : EntryPointSpec) :
    lookupKey (epToDict ep) "short_description" =
      (if ep.short_description.truthy then some ep.short_description else none) := by
  unfold epToDict
  by_cases h : ep.short_description.truthy <;>
    simp only [h, ite_true, ite_false] <;>
    split_ifs <;> simp [lookupKey]

theorem epToDict_lookup_description (ep : EntryPointSpec) :
    lookupKey (epToDict ep) "description" =
      (if ep.description.truthy then some (wrapAsList ep.description) else none) := by
  unfold epToDict
  by_cases h : ep.description.truthy <;>
    simp only [h, ite_true, ite_false] <;>
    split_ifs <;> simp [lookupKey]

theorem epToDict_lookup_author (ep : EntryPointSpec) :
    lookupKey (epToDict ep) "author" =
      (if ep.author.truthy then some (ylist (pyListify ep.author)) else none) := by
  unfold epToDict
  by_cases h : ep.author.truthy <;>
    simp only [h, ite_true, ite_false] <;>
    split_ifs <;> simp [lookupKey]

theorem epToDict_lookup_options (ep : EntryPointSpec) :
    lookupKey (epToDict ep) "options" =
      (if !ep.options.isEmpty then
        some (ydict ((sortByKey ep.options).map (fun p => (p.1, ydict (argToDict p.2)))))
       else none) := by
  unfold epToDict
  by_cases h : !ep.options.isEmpty <;>
    simp only [h, ite_true, ite_false] <;>
    split_ifs <;> simp [lookupKey]

theorem wrap_idem (d : YVal) : wrapAsList (wrapAsList d) = wrapAsList d := by
  cases d <;> rfl

theorem wrap_truthy (d : YVal) (h : d.truthy = true) : (wrapAsList d).truthy = true := by
  cases d <;> first | exact h | rfl

theorem str_append_isEmpty_false (a b : String) (h : a.isEmpty = false) :
    (a ++ b).isEmpty = false := by
  cases hc : (a ++ b).isEmpty with
  | false => rfl
  | true =>
      exfalso
      have he : a ++ b = "" := (String.isEmpty_iff (a ++ b)).mp hc
      have hd : a.data ++ b.data = [] := by
        have := congrArg String.data he
        rwa [String.data_append] at this
      have ha : a = "" := by
        apply String.ext
        exact (List.append_eq_nil.mp hd).1
      rw [ha] at h
      cases h

theorem genDescriptionLines_ne_nil (r e : String) (A : Analysis) :
    genDescriptionLines r e A ≠ [] := by
  unfold genDescriptionLines
  simp only []
  split_ifs <;> simp

/-- goodEntry is the well-formedness proviso on one stored entry under
which the round trip is clean: entry-level fields, when present, are
truthy, and a stored author is a nonempty list.  A generated file always
satisfies it; a hand-edited file with a present-but-empty field is exactly
the counterexample territory. -/
def goodEntry (e : ExistingEntry) : Prop :=
  (∀ d, e.description = some d → d.truthy = true) ∧
  (∀ d, e.short_description = some d → d.truthy = true) ∧
  (∀ a, e.author = some a → ∃ xs, a = ylist xs ∧ xs ≠ [])

theorem goodEntry_default : goodEntry {} := by
  refine ⟨fun d h => ?_, fun d h => ?_, fun a h => ?_⟩ <;> cases h

theorem ep_short_truthy (epName roleName : String) (A : Analysis) (ex : ExistingEntry)
    (hgood : ∀ d, ex.short_description = some d → d.truthy = true) :
    (createEntryPointSpec epName roleName A ex).short_description.truthy = true := by
  show (match ex.short_description with
    | some d => d
    | none =>
        if !A.metaShortDescription.isEmpty then ystr A.metaShortDescription
        else ystr ("Auto-generated specs for " ++ roleName ++ " role - " ++ epName ++
          " entry point")).truthy = true
  cases hx : ex.short_description with
  | some d => exact hgood d hx
  | none =>
      simp only []
      split_ifs with h
      · exact h
      · have hne : ("Auto-generated specs for " ++ roleName ++ " role - " ++ epName ++
            " entry point").isEmpty = false := by
          apply str_append_isEmpty_false
          apply str_append_isEmpty_false
          apply str_append_isEmpty_false
          apply str_append_isEmpty_false
          rfl
        show !("Auto-generated specs for " ++ roleName ++ " role - " ++ epName ++
          " entry point").isEmpty = true
        rw [hne]
        rfl

theorem ep_description_truthy (epName roleName : String) (A : Analysis) (ex : ExistingEntry)
    (hgood : ∀ d, ex.description = some d → d.truthy = true) :
    (createEntryPointSpec epName roleName A ex).description.truthy = true := by
  show (match ex.description with
    | some d => d
    | none =>
        if A.metaDescription.truthy then A.metaDescription
        else ylist ((genDescriptionLines roleName epName A).map ystr)).truthy = true
  cases hx : ex.description with
  | some d => exact hgood d hx
  | none =>
      simp only []
      split_ifs with h
      · exact h
      · cases hgen : genDescriptionLines roleName epName A with
        | nil => exact absurd hgen (genDescriptionLines_ne_nil roleName epName A)
        | cons a l => rfl

end ArgSpecGen

namespace ArgSpecGen

open YVal

theorem isEmpty_congr_keys {α β : Type} (o2 : List (String × α)) (o1 : List (String × β))
    (h : o2.map Prod.fst = o1.map Prod.fst) : o2.isEmpty = o1.isEmpty := by
  cases o2 <;> cases o1 <;> simp_all

theorem epToDict_congr (e1 e2 : EntryPointSpec)
    (h1 : e2.short_description = e1.short_description)
    (h2 : (if e2.description.truthy then [("description", wrapAsList e2.description)] else []) =
          (if e1.description.truthy then [("description", wrapAsList e1.description)] else []))
    (h3 : (if e2.author.truthy then [("author", ylist (pyListify e2.author))] else []) =
          (if e1.author.truthy then [("author", ylist (pyListify e1.author))] else []))
    (h4 : (if !e2.options.isEmpty then
            [("options", ydict ((sortByKey e2.options).map (fun p => (p.1, ydict (argToDict p.2)))))]
           else []) =
          (if !e1.options.isEmpty then
            [("options", ydict ((sortByKey e1.options).map (fun p => (p.1, ydict (argToDict p.2)))))]
           else []))
    (h5 : e2.required_if = e1.required_if)
    (h6 : e2.required_one_of = e1.required_one_of)
    (h7 : e2.mutually_exclusive = e1.mutually_exclusive)
    (h8 : e2.required_together = e1.required_together) :
    epToDict e2 = epToDict e1 := by
  unfold epToDict
  rw [h1, h2, h3, h4, h5, h6, h7, h8]

/-- entry_roundtrip: one entry point rebuilt from the reloaded snapshot of
its own serialized form serializes identically, given duplicate-free
defaults keys and a well-formed original snapshot entry. -/
theorem entry_roundtrip (A : Analysis) (epName roleName : String) (ex1 : ExistingEntry)
    (hd : (A.defaults.map Prod.fst).Nodup) (hgood : goodEntry ex1) :
    epToDict (createEntryPointSpec epName roleName A
      (parseExistingEntry (epToDict (createEntryPointSpec epName roleName A ex1)))) =
      epToDict (createEntryPointSpec epName roleName A ex1) := by
  set ep1 := createEntryPointSpec epName roleName A ex1 with hep1
  set ex2 := parseExistingEntry (epToDict ep1) with hex2
  set ep2 := createEntryPointSpec epName roleName A ex2 with hep2
  have hshort1 : ep1.short_description.truthy = true :=
    ep_short_truthy epName roleName A ex1 hgood.2.1
  have hdesc1 : ep1.description.truthy = true :=
    ep_description_truthy epName roleName A ex1 hgood.1
  have hx2short : ex2.short_description = some ep1.short_description := by
    show lookupKey (epToDict ep1) "short_description" = _
    rw [epToDict_lookup_short, if_pos hshort1]
  have hx2desc : ex2.description = some (wrapAsList ep1.description) := by
    show lookupKey (epToDict ep1) "description" = _
    rw [epToDict_lookup_description, if_pos hdesc1]
  have hx2author : ex2.author =
      (if ep1.author.truthy then some (ylist (pyListify ep1.author)) else none) := by
    show lookupKey (epToDict ep1) "author" = _
    exact epToDict_lookup_author ep1
  have hep2short : ep2.short_description = ep1.short_description := by
    show (match ex2.short_description with
      | some d => d
      | none =>
          if !A.metaShortDescription.isEmpty then ystr A.metaShortDescription
          else ystr ("Auto-generated specs for " ++ roleName ++ " role - " ++ epName ++
            " entry point")) = _
    rw [hx2short]
  have hep2desc : ep2.description = wrapAsList ep1.description := by
    show (match ex2.description with
      | some d => d
      | none =>
          if A.metaDescription.truthy then A.metaDescription
          else ylist ((genDescriptionLines roleName epName A).map ystr)) = _
    rw [hx2desc]
  have HEX : ∀ n s, lookupKey (epOptions A epName ex1.options) n = some s →
      getOpt ex2.options n = roundtripOpt s := by
    intro n s h
    have hO1ne : (epOptions A epName ex1.options).isEmpty = false := by
      cases hO : epOptions A epName ex1.options with
      | nil => rw [hO] at h; cases h
      | cons a l => rfl
    have hcond : (!ep1.options.isEmpty) = true := by
      have : ep1.options = epOptions A epName ex1.options := rfl
      rw [this, hO1ne]
      rfl
    have hlook := epToDict_lookup_options ep1
    rw [if_pos hcond] at hlook
    have hx2opts : ex2.options =
        ((sortByKey ep1.options).map (fun p => (p.1, ydict (argToDict p.2)))).map
          (fun p => (p.1, parseExistingOpt p.2)) := by
      show (match lookupKey (epToDict ep1) "options" with
        | some (ydict opts) => opts.map (fun p : String × YVal => (p.1, parseExistingOpt p.2))
        | _ => []) = _
      rw [hlook]
    rw [hx2opts]
    unfold getOpt
    rw [List.map_map]
    show ((lookupKey ((sortByKey ep1.options).map
      (fun p : String × ArgumentSpec => (p.1, roundtripOpt p.2))) n).getD {}) = roundtripOpt s
    rw [lookup_map_values roundtripOpt (sortByKey ep1.options) n]
    have hnd1 : ((epOptions A epName ex1.options).map Prod.fst).Nodup :=
      epOptions_keys_nodup A epName ex1.options
    have hndsorted : ((sortByKey ep1.options).map Prod.fst).Nodup := by
      have hperm := (sortByKey_perm ep1.options).map Prod.fst
      exact hperm.nodup_iff.mpr hnd1
    have hsl : lookupKey (sortByKey ep1.options) n = lookupKey ep1.options n :=
      lookupKey_perm _ _ (sortByKey_perm _) hndsorted n
    rw [hsl]
    have he : ep1.options = epOptions A epName ex1.options := rfl
    rw [he, h]
    rfl
  have hopts : optsDict (epOptions A epName ex2.options) =
      optsDict (epOptions A epName ex1.options) :=
    epOptions_parallel A epName ex1.options ex2.options hd HEX
  have hkeys : (epOptions A epName ex2.options).map Prod.fst =
      (epOptions A epName ex1.options).map Prod.fst := by
    rw [← optsDict_keys, hopts, optsDict_keys]
  apply epToDict_congr
  · exact hep2short
  · rw [hep2desc, wrap_idem, wrap_truthy _ hdesc1, hdesc1]
  · have hauth_shape : ∃ xs, ep1.author = ylist xs := by
      show ∃ xs, (match ex1.author with
        | some a => a
        | none => ylist (A.authors.map ystr)) = ylist xs
      cases hxa : ex1.author with
      | some a =>
          rcases hgood.2.2 a hxa with ⟨xs, hxs, _⟩
          exact ⟨xs, by rw [hxs]⟩
      | none => exact ⟨A.authors.map ystr, rfl⟩
    rcases hauth_shape with ⟨xs, hxs⟩
    by_cases hA : ep1.author.truthy = true
    · have hep2auth : ep2.author = ylist xs := by
        show (match ex2.author with
          | some a => a
          | none => ylist (A.authors.map ystr)) = _
        rw [hx2author, if_pos hA, hxs]
        rfl
      rw [hep2auth, hxs]
    · have hA0 : ep1.author.truthy = false := by rwa [Bool.not_eq_true] at hA
      have hep2auth : ep2.author = ylist (A.authors.map ystr) := by
        show (match ex2.author with
          | some a => a
          | none => ylist (A.authors.map ystr)) = _
        rw [hx2author, hA0]
        rfl
      have hnone : ex1.author = none := by
        cases hxa : ex1.author with
        | some a =>
            rcases hgood.2.2 a hxa with ⟨ys, hys, hyne⟩
            have : ep1.author = ylist ys := by
              show (match ex1.author with
                | some a => a
                | none => ylist (A.authors.map ystr)) = _
              rw [hxa, hys]
            rw [this] at hA0
            have : ys = [] := by
              cases hy : ys with
              | nil => rfl
              | cons b t => rw [hy] at hA0; cases hA0
            exact absurd this hyne
        | none => rfl
      have hsame : ep1.author = ylist (A.authors.map ystr) := by
        show (match ex1.author with
          | some a => a
          | none => ylist (A.authors.map ystr)) = _
        rw [hnone]
      rw [hep2auth, ← hsame, hA0]
  · have heq2 : ep2.options = epOptions A epName ex2.options := rfl
    have heq1 : ep1.options = epOptions A epName ex1.options := rfl
    have hie : ep2.options.isEmpty = ep1.options.isEmpty := by
      rw [heq2, heq1]
      exact isEmpty_congr_keys _ _ hkeys
    have hsm : (sortByKey ep2.options).map (fun p => (p.1, ydict (argToDict p.2))) =
        (sortByKey ep1.options).map (fun p => (p.1, ydict (argToDict p.2))) := by
      have e2 : (sortByKey ep2.options).map (fun p => (p.1, ydict (argToDict p.2))) =
          sortByKey (optsDict ep2.options) :=
        map_sortByKey (fun s0 => ydict (argToDict s0)) ep2.options
      have e1 : (sortByKey ep1.options).map (fun p => (p.1, ydict (argToDict p.2))) =
          sortByKey (optsDict ep1.options) :=
        map_sortByKey (fun s0 => ydict (argToDict s0)) ep1.options
      rw [e2, e1]
      have h2' : optsDict ep2.options = optsDict ep1.options := by
        rw [heq2, heq1]
        exact hopts
      rw [h2']
    rw [hie, hsm]
  · rfl
  · rfl
  · rfl
  · rfl

end ArgSpecGen

namespace ArgSpecGen

open YVal

theorem filterMap_specsEntries (l : List (String × EntryPointSpec)) :
    (l.map (fun p => (p.1, ydict (epToDict p.2)))).filterMap
      (fun p => match p.2 with
        | ydict ed => some (p.1, parseExistingEntry ed)
        | _ => none) =
      l.map (fun p => (p.1, parseExistingEntry (epToDict p.2))) := by
  induction l with
  | nil => rfl
  | cons p rest ih =>
      show (p.1, parseExistingEntry (epToDict p.2)) ::
        (rest.map (fun p => (p.1, ydict (epToDict p.2)))).filterMap
          (fun p => match p.2 with
            | ydict ed => some (p.1, parseExistingEntry ed)
            | _ => none) = _
      rw [ih]
      rfl

theorem loadExisting_of_specsTree (eps : List (String × EntryPointSpec)) :
    loadExistingSpecs (specsTree eps) =
      eps.map (fun p => (p.1, parseExistingEntry (epToDict p.2))) :=
  filterMap_specsEntries eps

theorem lookup_keyed_map {α : Type} (f : String → α) :
    ∀ (l : List String) (e : String), e ∈ l →
      lookupKey (l.map (fun x => (x, f x))) e = some (f e) := by
  intro l
  induction l with
  | nil => intro e he; cases he
  | cons x rest ih =>
      intro e he
      by_cases h : x = e
      · simp [lookupKey, h]
      · rcases List.mem_cons.mp he with h1 | h2
        · exact absurd h1.symm h
        · simp only [List.map_cons, lookupKey, if_neg h]
          exact ih e h2

/-- Claim C2 (amended): the round trip is idempotent for every role whose
defaults keys are duplicate-free and whose pre-existing snapshot, if any,
has truthy entry-level fields wherever they are present (with a stored
author a nonempty list); in particular for every role with no pre-existing
meta/argument_specs.yml.  Writing the first output and rerunning the
generator over the unchanged role reproduces the identical tree, hence
byte-identical YAML: no option gains, loses or changes version_added, no
description changes, no reordering.  Without the proviso the claim fails,
see the counterexample. -/
theorem process_role_idempotent (A : Analysis) (roleName : String)
    (E : List (String × ExistingEntry))
    (hd : (A.defaults.map Prod.fst).Nodup)
    (hgood : ∀ p ∈ E, goodEntry p.2) :
    runRoleTree A roleName (loadExistingSpecs (runRoleTree A roleName E)) =
      runRoleTree A roleName E := by
  unfold runRoleTree
  rw [loadExisting_of_specsTree]
  unfold processRole specsTree
  simp only [List.map_map]
  apply congrArg (fun M => ydict [("argument_specs", ydict M)])
  apply List.map_congr_left
  intro e he
  have hl := lookup_keyed_map (fun x => parseExistingEntry (epToDict
    (createEntryPointSpec x roleName A ((lookupKey E x).getD {})))) (entryNames A) e he
  show (e, ydict (epToDict (createEntryPointSpec e roleName A
    ((lookupKey ((entryNames A).map (fun x => (x, parseExistingEntry (epToDict
      (createEntryPointSpec x roleName A ((lookupKey E x).getD {})))))) e).getD {})))) = _
  rw [hl]
  have hge : goodEntry ((lookupKey E e).getD {}) := by
    cases hc : lookupKey E e with
    | some p2 => exact hgood (e, p2) (mem_of_lookup_some E e p2 hc)
    | none => exact goodEntry_default
  have hrt := entry_roundtrip A e roleName ((lookupKey E e).getD {}) hd hge
  show (e, ydict (epToDict (createEntryPointSpec e roleName A
    (parseExistingEntry (epToDict (createEntryPointSpec e roleName A
      ((lookupKey E e).getD {}))))))) = _
  rw [hrt]
  rfl

end ArgSpecGen

namespace ArgSpecGen

open YVal

/-- c2WitnessAnalysis is a small role with one default variable and a main
task file. -/
def c2WitnessAnalysis : Analysis :=
  { defaults := [("port", YVal.yint 8080)], taskFiles := ["main"] }

/-- Claim C2 witness: the amended idempotence theorem applied to a concrete
role with one default variable and no pre-existing snapshot. -/
theorem process_role_idempotent_witness :
    ((c2WitnessAnalysis.defaults.map Prod.fst).Nodup ∧
      (∀ p ∈ ([] : List (String × ExistingEntry)), goodEntry p.2)) ∧
    runRoleTree c2WitnessAnalysis "web" (loadExistingSpecs
      (runRoleTree c2WitnessAnalysis "web" [])) =
      runRoleTree c2WitnessAnalysis "web" [] :=
  ⟨⟨by simp [c2WitnessAnalysis], fun p hp => absurd hp (List.not_mem_nil p)⟩,
    process_role_idempotent c2WitnessAnalysis "web" []
      (by simp [c2WitnessAnalysis]) (fun p hp => absurd hp (List.not_mem_nil p))⟩

end ArgSpecGen
